import Mathlib

/-!
Shallow embedding of the seating-arrangement optimizer
(`seating_planner.py`): the attendee data model, the pairing-history
extraction (`SeatingHistory.get_recent_pairings`), the two per-table
scorers, and the randomized search `SeatingOptimizer.optimize_seating`.

Python floats are modelled by `ℚ`; machine integers by `Nat`/`Int`
(Python's floor division `//` and `%` are `Int.fdiv` / `Int.fmod`).
`random.shuffle` is modelled by an oracle function supplied per
iteration; invariant theorems quantify over all oracles, permutation
facts are hypotheses where needed.  Python `dict` values are modelled
by association lists, and raised exceptions by `Except`.
-/

namespace Seating

/-- The `Attendee` dataclass: `name`, `gender`, `seniority`, `field`,
`assign_head_table`.  The derived `DecidableEq` is the dataclass
`__eq__` (field-by-field comparison); `__hash__` is modelled
separately below. -/
structure Attendee where
  name : String
  gender : String
  seniority : String
  field : String
  assign_head_table : Bool := false
deriving DecidableEq, Repr

/-- The dataclass-generated `__eq__`: compares every field. -/
def attendeeEq (a b : Attendee) : Bool :=
  a.name = b.name ∧ a.gender = b.gender ∧ a.seniority = b.seniority ∧
    a.field = b.field ∧ a.assign_head_table = b.assign_head_table

/-- The method `Attendee.__hash__`: `hash(self.name)`, for an arbitrary underlying
string-hash function `h`. -/
def attendeeHash (h : String → Int) (a : Attendee) : Int :=
  h a.name

/-- The `TableConstraints` dataclass (its `__post_init__` validation is not
needed by any claim and is omitted; theorems that depend on the
dataclass invariant `2 ≤ min_seats ≤ max_seats` take it as a
hypothesis). -/
structure TableConstraints where
  min_seats : Nat
  max_seats : Nat
deriving DecidableEq, Repr

/-- Model of `itertools.combinations(l, 2)`: all position pairs `(l[i], l[j])`
with `i < j`, in source order. -/
def pairsOf : List α → List (α × α)
  | [] => []
  | x :: xs => xs.map (fun y => (x, y)) ++ pairsOf xs

/-- Python string comparison: lexicographic on code points. -/
def charsLe : List Char → List Char → Bool
  | [], _ => true
  | _ :: _, [] => false
  | c :: cs, d :: ds =>
    if c.toNat < d.toNat then true
    else if d.toNat < c.toNat then false
    else charsLe cs ds

/-- Model of `tuple(sorted([a, b]))` for two strings. -/
def sortPair (a b : String) : String × String :=
  if charsLe a.data b.data then (a, b) else (b, a)

/-- A past seating event, reduced to what `get_recent_pairings` reads:
the list of tables, each a list of attendee names. -/
abbrev Event := List (List String)

/-- The Python dict `pairings`: an association list from sorted name
pairs to indicator vectors. -/
abbrev PairDict := List ((String × String) × List ℚ)

/-- Dict lookup (first matching key). -/
def dlookup (d : PairDict) (k : String × String) : Option (List ℚ) :=
  match d with
  | [] => none
  | e :: es => if e.1 = k then some e.2 else dlookup es k

/-- Model of `self.history[-self.memory_events:]`: the most recent
`memory_events` events in chronological order.  Python's `l[-0:]` is
the whole list. -/
def windowEvents (history : List Event) (memory_events : Nat) : List Event :=
  if memory_events = 0 then history
  else history.drop (history.length - memory_events)

/-- The set `all_attendees` of names occurring anywhere in the window,
modelled as a duplicate-free list. -/
def namesInWindow (evs : List Event) : List String :=
  ((evs.map (fun e => e.flatten)).flatten).dedup

/-- One update `pairings[pair][event_idx] = 1` of the dict, for one key. -/
def setSlot (d : PairDict) (k : String × String) (idx : Nat) : PairDict :=
  d.map (fun e => if e.1 = k then (e.1, e.2.set idx 1) else e)

/-- The inner two loops of `get_recent_pairings` for one event: for
every table and every combination of two names in it, set this event's
slot of that pair to 1. -/
def applyEvent (d : PairDict) (idx : Nat) (e : Event) : PairDict :=
  e.foldl
    (fun d t =>
      ((pairsOf t).map (fun pq => sortPair pq.1 pq.2)).foldl
        (fun d k => setSlot d k idx) d)
    d

/-- Model of `SeatingHistory.get_recent_pairings`: initialize every sorted pair
of distinct window names to a zero vector of the window length, then
mark co-seated slots event by event. -/
def get_recent_pairings (history : List Event) (memory_events : Nat) : PairDict :=
  let evs := windowEvents history memory_events
  let names := namesInWindow evs
  let init : PairDict :=
    (pairsOf names).map
      (fun pq => (sortPair pq.1 pq.2, List.replicate evs.length (0 : ℚ)))
  (evs.enum).foldl (fun d p => applyEvent d p.1 p.2) init

/-- Model of `sum(w * h for w, h in zip(time_weights[:len(pair_history)],
pair_history))` with `time_weights = [1.0, 0.6, 0.3]`.  (`zip`
truncates to the shorter list, so slicing the weights first changes
nothing.) -/
def weightedPenalty (h : List ℚ) : ℚ :=
  (List.zipWith (· * ·) [1, 6/10, 3/10] h).sum

/-- Model of `SeatingOptimizer.calculate_time_weighted_penalty`.  The dict
parameter is modelled as the lookup function of a `PairDict`. -/
def calculate_time_weighted_penalty (c : TableConstraints)
    (table : List Attendee) (rp : String × String → Option (List ℚ)) : ℚ :=
  if table.isEmpty ∨ table.length < c.min_seats then 0
  else
    let present : List (List ℚ) :=
      (pairsOf table).filterMap (fun pq => rp (sortPair pq.1.name pq.2.name))
    if present.length = 0 then 1
    else max 0 (1 - (present.map weightedPenalty).sum / present.length)

/-- Model of `SeatingOptimizer.calculate_table_diversity_score` with weights
`gender_weight`, `seniority_weight`, `field_weight`. -/
def calculate_table_diversity_score (c : TableConstraints)
    (wg ws wf : ℚ) (table : List Attendee) : ℚ :=
  if table.isEmpty ∨ table.length < c.min_seats then 0
  else
    let n : ℚ := table.length
    let genderFrac := (table.countP (fun a => a.gender = "F") : ℚ) / n
    let genderScore := 1 - |(1/2 : ℚ) - genderFrac|
    let seniorFrac := (table.countP (fun a => a.seniority = "senior") : ℚ) / n
    let seniorityScore := 1 - |(1/2 : ℚ) - seniorFrac|
    let uniqueFields := ((table.map (fun a => a.field)).dedup).length
    let fieldScore := (uniqueFields : ℚ) / n
    (genderScore * wg + seniorityScore * ws + fieldScore * wf) / (wg + ws + wf)

/-- A `random.shuffle` outcome oracle for one loop iteration: `s1` is
applied to `available_for_head`, `s2` to `remaining_attendees`.
Theorems that need shuffles to be permutations hypothesize it. -/
structure IterOracle where
  s1 : List Attendee → List Attendee
  s2 : List Attendee → List Attendee

/-- The two exception kinds that can escape the body of one search
iteration: `valueError` is caught by the loop's `except ValueError`,
`zeroDiv` models the uncaught `ZeroDivisionError` from
`total_remaining // remaining_tables` when `num_tables == 1`. -/
inductive IterErr where
  | valueError
  | zeroDiv
deriving DecidableEq, Repr

/-- The `for i in range(remaining_tables)` loop building the flexible
tables: `k` iterations remain, `i` is the current index, `start` the
current slice start.  `table_size = base_size + (1 if i < extra else
0)`; sizes out of `[min_seats, max_seats]` raise `ValueError`; each
table is the slice `remaining_attendees[start:start+table_size]`. -/
def tableSize (base extra : Int) (i : Nat) : Int :=
  base + (if (i : Int) < extra then 1 else 0)

def buildLoop (c : TableConstraints) (pool : List Attendee)
    (base extra : Int) : Nat → Nat → Nat → Except IterErr (List (List Attendee))
  | 0, _, _ => .ok []
  | k + 1, i, start =>
    if tableSize base extra i < (c.min_seats : Int) then .error .valueError
    else if (c.max_seats : Int) < tableSize base extra i then .error .valueError
    else
      match buildLoop c pool base extra k (i + 1) (start + (tableSize base extra i).toNat) with
      | .error e => .error e
      | .ok rest => .ok (((pool.drop start).take (tableSize base extra i).toNat) :: rest)

/-- Lines 329–349 of `optimize_seating`: compute `base_size` and
`extra` by Python floor division/modulus (`Int.fdiv`/`Int.fmod`), then
slice the shuffled pool.  `remaining_tables = 0` raises
`ZeroDivisionError`; `range` of a negative number is empty. -/
def buildOtherTables (c : TableConstraints) (remTables : Int)
    (pool : List Attendee) : Except IterErr (List (List Attendee)) :=
  if remTables = 0 then .error .zeroDiv
  else
    buildLoop c pool (Int.fdiv (pool.length : Int) remTables)
      (Int.fmod (pool.length : Int) remTables) remTables.toNat 0 0

/-- The size-balance score of the flexible tables (lines 365–370):
`1.0` when there are fewer than two flexible tables, otherwise
`1 - sum(|s1 - s2|) / (len(other_tables) * max_seats)` — with no
clamping. -/
def sizeBalanceScore (c : TableConstraints) (otherTables : List (List Attendee)) : ℚ :=
  let sizes := otherTables.map (fun t => (t.length : Int))
  let sizeVariations := (pairsOf sizes).map (fun p => ((|p.1 - p.2| : Int) : ℚ))
  if sizeVariations.isEmpty then 1
  else 1 - sizeVariations.sum / ((otherTables.length : ℚ) * (c.max_seats : ℚ))

/-- The composite score of a candidate arrangement (lines 353–377):
60% mean diversity, 25% mean recency, 15% size balance. -/
def compositeScore (c : TableConstraints) (wg ws wf : ℚ)
    (rp : String × String → Option (List ℚ))
    (currentArrangement otherTables : List (List Attendee)) : ℚ :=
  let diversityScores := currentArrangement.map
    (calculate_table_diversity_score c wg ws wf)
  let recencyScores := currentArrangement.map
    (fun t => calculate_time_weighted_penalty c t rp)
  (6/10) * diversityScores.sum / (currentArrangement.length : ℚ) +
    (25/100) * recencyScores.sum / (currentArrangement.length : ℚ) +
    (15/100) * sizeBalanceScore c otherTables

/-- Line 316: `available_for_head = [a for a in other_attendees if not
a.assign_head_table]`. -/
def availableForHead (otherAttendees : List Attendee) : List Attendee :=
  otherAttendees.filter (fun a => !a.assign_head_table)

/-- Lines 315–322: the head table of the current iteration — the fixed
part extended, when short of `max_seats`, by the first
`max_seats - len` entries of the shuffled `available_for_head`. -/
def currentHead (c : TableConstraints) (headTableAttendees otherAttendees : List Attendee)
    (o : IterOracle) : List Attendee :=
  if headTableAttendees.length < c.max_seats then
    headTableAttendees ++
      (o.s1 (availableForHead otherAttendees)).take
        (c.max_seats - headTableAttendees.length)
  else headTableAttendees

/-- Line 326: `remaining_attendees = [a for a in other_attendees if a
not in current_head_table]`. -/
def remainingPool (c : TableConstraints) (headTableAttendees otherAttendees : List Attendee)
    (o : IterOracle) : List Attendee :=
  otherAttendees.filter
    (fun a => !((currentHead c headTableAttendees otherAttendees o).contains a))

/-- One iteration of the search loop (lines 312–377): fill the head
table to `max_seats` from the non-flagged remainder, shuffle, slice
the flexible tables, and score.  Returns the scored arrangement or the
exception that aborted the iteration. -/
def runIteration (c : TableConstraints) (wg ws wf : ℚ)
    (rp : String × String → Option (List ℚ))
    (headTableAttendees otherAttendees : List Attendee) (remTables : Int)
    (o : IterOracle) : Except IterErr (ℚ × List (List Attendee)) :=
  match buildOtherTables c remTables
      (o.s2 (remainingPool c headTableAttendees otherAttendees o)) with
  | .error e => .error e
  | .ok otherTables =>
    .ok (compositeScore c wg ws wf rp
        (currentHead c headTableAttendees otherAttendees o :: otherTables) otherTables,
      currentHead c headTableAttendees otherAttendees o :: otherTables)

/-- The search loop (lines 312–384): skip `ValueError` iterations,
abort on `ZeroDivisionError`, keep the strictly best score. -/
def searchLoop (c : TableConstraints) (wg ws wf : ℚ)
    (rp : String × String → Option (List ℚ))
    (headTableAttendees otherAttendees : List Attendee) (remTables : Int) :
    List IterOracle → ℚ × List (List Attendee) →
      Except IterErr (ℚ × List (List Attendee))
  | [], best => .ok best
  | o :: os, best =>
    match runIteration c wg ws wf rp headTableAttendees otherAttendees remTables o with
    | .error .zeroDiv => .error .zeroDiv
    | .error .valueError =>
      searchLoop c wg ws wf rp headTableAttendees otherAttendees remTables os best
    | .ok p =>
      searchLoop c wg ws wf rp headTableAttendees otherAttendees remTables os
        (if best.1 < p.1 then p else best)

/-- The message of the pre-loop attendee-count `ValueError`. -/
def needMsg (minRequired : Int) (maxSeats minSeats : Nat) (remTables : Int) : String :=
  "Need at least " ++ toString minRequired ++ " attendees: " ++
    toString maxSeats ++ " for head table and " ++ toString minSeats ++
    " each for " ++ toString remTables ++ " other tables"

/-- The message of the pre-loop head-table-count `ValueError`. -/
def tooManyMsg (maxSeats : Nat) : String :=
  "Too many head table assignments (maximum is " ++ toString maxSeats ++ ")"

/-- The post-loop infeasibility `ValueError` message. -/
def infeasibleMsg : String := "Could not find valid seating arrangement"

/-- The post-loop head-table-size `ValueError` message. -/
def headSizeMsg (n maxSeats : Nat) : String :=
  "Head table has " ++ toString n ++ " seats instead of required " ++
    toString maxSeats

/-- Marker for the uncaught `ZeroDivisionError` escaping the call. -/
def zeroDivMsg : String := "ZeroDivisionError: integer division or modulo by zero"

/-- The effective fixed head-table list (line 294):
`head_table_assignments or [a for a in attendees if
a.assign_head_table]` — an explicit empty list is falsy. -/
def effectiveHead (attendees : List Attendee)
    (head_table_assignments : Option (List Attendee)) : List Attendee :=
  match head_table_assignments with
  | some l => if l.isEmpty then attendees.filter (fun a => a.assign_head_table) else l
  | none => attendees.filter (fun a => a.assign_head_table)

/-- Line 295: `[a for a in attendees if a not in head_table_attendees]`. -/
def effectiveOther (attendees headTableAttendees : List Attendee) : List Attendee :=
  attendees.filter (fun a => !(headTableAttendees.contains a))

/-- Model of `SeatingOptimizer.optimize_seating`.  The iteration count is the
length of the oracle list (Python: `iterations`, default 1000). -/
def optimize_seating (c : TableConstraints) (wg ws wf : ℚ)
    (rp : String × String → Option (List ℚ)) (attendees : List Attendee)
    (num_tables : Nat) (head_table_assignments : Option (List Attendee))
    (oracles : List IterOracle) : Except String (List (List Attendee)) :=
  let headTableAttendees := effectiveHead attendees head_table_assignments
  let otherAttendees := effectiveOther attendees headTableAttendees
  let remTables : Int := (num_tables : Int) - 1
  let minRequired : Int := (c.max_seats : Int) + (c.min_seats : Int) * remTables
  if (attendees.length : Int) < minRequired then
    .error (needMsg minRequired c.max_seats c.min_seats remTables)
  else if c.max_seats < headTableAttendees.length then
    .error (tooManyMsg c.max_seats)
  else
    match searchLoop c wg ws wf rp headTableAttendees otherAttendees remTables
        oracles (-1, []) with
    | .error _ => .error zeroDivMsg
    | .ok (_, best) =>
      if best.isEmpty then .error infeasibleMsg
      else if (best.headD []).length ≠ c.max_seats then
        .error (headSizeMsg (best.headD []).length c.max_seats)
      else .ok best

/-! ### Reference (spec-side) definitions, for refinement claims -/

/-- Modelled from the spec's words for the recency penalty: weights
`[1.0, 0.6, 0.3]` applied to the *most-recent*, second-most-recent and
third-most-recent slot of the (chronological) indicator vector,
truncating the weights when the vector is shorter than 3. -/
def refWeightedMostRecent (h : List ℚ) : ℚ :=
  (List.zipWith (· * ·) [1, 6/10, 3/10] h.reverse).sum

/-- The weighted sum with the weights applied chronologically: `1.0`
on the oldest slot of the window, `0.6` on the next, `0.3` on the
third (further slots ignored). -/
def refWeightedChrono (h : List ℚ) : ℚ :=
  (List.zipWith (· * ·) [1, 6/10, 3/10] h).sum

/-- Modelled from the spec's words (§4.2 `penalty`): average the
weighted sum over exactly the in-table pairs the memory has a vector
for; `1.0` when there is no such pair; `0` below `min_seats`.
Parameterized by the weighting scheme `w`. -/
def refPenalty (w : List ℚ → ℚ) (minSeats : Nat) (table : List Attendee)
    (rp : String × String → Option (List ℚ)) : ℚ :=
  if table.length < minSeats then 0
  else
    let withHist := (pairsOf table).filter
      (fun pq => (rp (sortPair pq.1.name pq.2.name)).isSome)
    if withHist.isEmpty then 1
    else
      max 0 (1 -
        (withHist.map
          (fun pq => w ((rp (sortPair pq.1.name pq.2.name)).getD []))).sum /
        (withHist.length : ℚ))

/-- Modelled from the spec's words (C6): the sum of pairwise absolute
size differences of a list of table sizes. -/
def pairwiseAbsSum : List Int → Int
  | [] => 0
  | x :: xs => (xs.map (fun y => |x - y|)).sum + pairwiseAbsSum xs

/-- Whether two names sit at a common table of one event. -/
def coSeatedB (e : Event) (a b : String) : Bool :=
  e.any (fun t => a ∈ t ∧ b ∈ t)

/-- Whether some key update performed by `applyEvent` for event `e`
targets the dict key `k`. -/
def evKeyB (e : Event) (k : String × String) : Bool :=
  e.any (fun t => (pairsOf t).any (fun pq => sortPair pq.1 pq.2 = k))

/-- The indicator vector the spec describes for a pair over a window:
one slot per event, in chronological order, `1` exactly when the two
names are co-seated at that event. -/
def indicatorVec (evs : List Event) (a b : String) : List ℚ :=
  evs.map (fun e => if coSeatedB e a b then 1 else 0)

/-- Sum of sizes produced by `buildLoop` over `k` steps starting at
index `i` (specification device for the slice arithmetic). -/
def sizesSum (base extra : Int) : Nat → Nat → Int
  | 0, _ => 0
  | k + 1, i => tableSize base extra i + sizesSum base extra k (i + 1)

/-! ### Heap model of `optimize_seating` (for the frame claim)

Python lists are mutable objects; to state that `optimize_seating`
never mutates its inputs we re-run the same code over an explicit heap
of list objects.  A `Heap` is the list of all attendee-list objects
ever allocated; an id is an index into it.  Every list-producing
expression of the source (`copy()`, comprehensions, slices) allocates
a fresh cell; `random.shuffle` and `extend` write in place through an
id.  Scoring only reads, and reuses the pure scorers above. -/

abbrev Heap := List (List Attendee)

/-- Allocate a fresh list object. -/
def allocH (h : Heap) (l : List Attendee) : Heap × Nat :=
  (h ++ [l], h.length)

/-- In-place update of the object at `i`. -/
def writeH (h : Heap) (i : Nat) (l : List Attendee) : Heap :=
  h.set i l

/-- Read the object at `i`. -/
def readH (h : Heap) (i : Nat) : List Attendee :=
  h.getD i []

/-- Heap version of the flexible-table loop: each slice of the pool
object allocates a fresh table object (its id is the heap length at
allocation time). -/
def buildLoopH (c : TableConstraints) (poolId : Nat) (base extra : Int) :
    Nat → Nat → Nat → Heap → Except IterErr (List Nat) × Heap
  | 0, _, _, h => (.ok [], h)
  | k + 1, i, start, h =>
    if tableSize base extra i < (c.min_seats : Int) then (.error .valueError, h)
    else if (c.max_seats : Int) < tableSize base extra i then (.error .valueError, h)
    else
      match buildLoopH c poolId base extra k (i + 1)
          (start + (tableSize base extra i).toNat)
          (h ++ [((readH h poolId).drop start).take (tableSize base extra i).toNat]) with
      | (.error e, h2) => (.error e, h2)
      | (.ok rest, h2) => (.ok (h.length :: rest), h2)

/-- Heap version of lines 329–349. -/
def buildOtherTablesH (c : TableConstraints) (remTables : Int)
    (poolId : Nat) (h : Heap) : Except IterErr (List Nat) × Heap :=
  if remTables = 0 then (.error .zeroDiv, h)
  else
    buildLoopH c poolId (Int.fdiv ((readH h poolId).length : Int) remTables)
      (Int.fmod ((readH h poolId).length : Int) remTables) remTables.toNat 0 0 h

/-- Heap version of one search iteration (lines 312–377).  Fresh list
objects (`copy()`, comprehensions, slices) are appended to the heap;
`random.shuffle` and `extend` write in place. -/
def runIterationH (c : TableConstraints) (wg ws wf : ℚ)
    (rp : String × String → Option (List ℚ)) (headId otherId : Nat)
    (remTables : Int) (o : IterOracle) (h : Heap) :
    Except IterErr (ℚ × List (List Attendee)) × Heap :=
  -- current_head_table = head_table_attendees.copy()
  let curId := h.length
  let h1 := h ++ [readH h headId]
  -- available_for_head = [a for a in other_attendees if not a.assign_head_table]
  let availId := h1.length
  let h2 := h1 ++ [(readH h1 otherId).filter (fun a => !a.assign_head_table)]
  let h6 :=
    if (readH h2 curId).length < c.max_seats then
      -- random.shuffle(available_for_head)
      let h3 := writeH h2 availId (o.s1 (readH h2 availId))
      -- head_table_fills = available_for_head[:seats_needed]
      let fillsId := h3.length
      let h4 := h3 ++ [(readH h3 availId).take
        (c.max_seats - (readH h3 curId).length)]
      -- current_head_table.extend(head_table_fills)
      let h5 := writeH h4 curId (readH h4 curId ++ readH h4 fillsId)
      -- available_for_head = [a for a in available_for_head if a not in head_table_fills]
      h5 ++ [(readH h5 availId).filter (fun a => !((readH h5 fillsId).contains a))]
    else h2
  -- remaining_attendees = [a for a in other_attendees if a not in current_head_table]
  let remId := h6.length
  let h7 := h6 ++ [(readH h6 otherId).filter (fun a => !((readH h6 curId).contains a))]
  -- random.shuffle(remaining_attendees)
  let h8 := writeH h7 remId (o.s2 (readH h7 remId))
  match buildOtherTablesH c remTables remId h8 with
  | (.error e, h9) => (.error e, h9)
  | (.ok tableIds, h9) =>
    (.ok (compositeScore c wg ws wf rp
        (readH h9 curId :: tableIds.map (fun i => readH h9 i))
        (tableIds.map (fun i => readH h9 i)),
      readH h9 curId :: tableIds.map (fun i => readH h9 i)), h9)

/-- Heap version of the search loop. -/
def searchLoopH (c : TableConstraints) (wg ws wf : ℚ)
    (rp : String × String → Option (List ℚ)) (headId otherId : Nat)
    (remTables : Int) :
    List IterOracle → ℚ × List (List Attendee) → Heap →
      Except IterErr (ℚ × List (List Attendee)) × Heap
  | [], best, h => (.ok best, h)
  | o :: os, best, h =>
    match runIterationH c wg ws wf rp headId otherId remTables o h with
    | (.error .zeroDiv, h1) => (.error .zeroDiv, h1)
    | (.error .valueError, h1) =>
      searchLoopH c wg ws wf rp headId otherId remTables os best h1
    | (.ok p, h1) =>
      searchLoopH c wg ws wf rp headId otherId remTables os
        (if best.1 < p.1 then p else best) h1

/-- The post-loop epilogue of `optimize_seating` (lines 386–394) over
the search-loop result: infeasibility check, head-size postcondition,
return.  It never touches the heap. -/
def finishOpt (c : TableConstraints)
    (r : Except IterErr (ℚ × List (List Attendee)) × Heap) :
    Except String (List (List Attendee)) × Heap :=
  match r with
  | (.error _, h3) => (.error zeroDivMsg, h3)
  | (.ok p, h3) =>
    if p.2.isEmpty then (.error infeasibleMsg, h3)
    else if (p.2.headD []).length ≠ c.max_seats then
      (.error (headSizeMsg (p.2.headD []).length c.max_seats), h3)
    else (.ok p.2, h3)

/-- Heap version of `optimize_seating`: the attendee list and the
optional override list live in the heap; the history is consulted only
through the freshly built pairing dict (line 289), and the
constraints/history objects are plain values the call never rebinds. -/
def optimize_seatingH (c : TableConstraints) (wg ws wf : ℚ)
    (history : List Event) (memory_events : Nat) (attId : Nat)
    (haId : Option Nat) (num_tables : Nat) (oracles : List IterOracle)
    (h : Heap) : Except String (List (List Attendee)) × Heap :=
  let rp := fun k => dlookup (get_recent_pairings history memory_events) k
  -- head_table_attendees = head_table_assignments or [flagged]: an
  -- explicit non-empty override list is aliased, otherwise a fresh
  -- filtered list is allocated
  let headId : Nat :=
    match haId with
    | some i => if (readH h i).isEmpty then h.length else i
    | none => h.length
  let h1 : Heap :=
    match haId with
    | some i =>
      if (readH h i).isEmpty then
        h ++ [(readH h attId).filter (fun a => a.assign_head_table)]
      else h
    | none => h ++ [(readH h attId).filter (fun a => a.assign_head_table)]
  -- other_attendees = [a for a in attendees if a not in head_table_attendees]
  let otherId := h1.length
  let h2 := h1 ++ [(readH h1 attId).filter
    (fun a => !((readH h1 headId).contains a))]
  let remTables : Int := (num_tables : Int) - 1
  let minRequired : Int := (c.max_seats : Int) + (c.min_seats : Int) * remTables
  if ((readH h2 attId).length : Int) < minRequired then
    (.error (needMsg minRequired c.max_seats c.min_seats remTables), h2)
  else if c.max_seats < (readH h2 headId).length then
    (.error (tooManyMsg c.max_seats), h2)
  else
    finishOpt c (searchLoopH c wg ws wf rp headId otherId remTables oracles (-1, []) h2)

/-- Frame relation: heap `h'` extends `h` and agrees with it on every
cell below `n` — the frame relation threaded through the call. -/
def PreservesBelow (n : Nat) (h h' : Heap) : Prop :=
  h.length ≤ h'.length ∧ ∀ j < n, readH h' j = readH h j

/-! ### Concrete inputs used by witnesses and counterexamples -/

/-- The identity shuffle oracle (one concrete outcome of
`random.shuffle`). -/
def idOracle : IterOracle := ⟨id, id⟩

/-- A generic attendee with a numbered name. -/
def mkA (i : Nat) : Attendee := ⟨"P" ++ toString i, "M", "junior", "X", false⟩

/-- Four generic attendees. -/
def atts4 : List Attendee := (List.range 4).map mkA

/-- The empty pairing memory. -/
def noRP : String × String → Option (List ℚ) := fun _ => none

/-- Scenario attendee `x` (unflagged, used as an explicit override). -/
def xA : Attendee := ⟨"x", "M", "junior", "X", false⟩

/-- Scenario attendees `y i` (pre-flagged for the head table). -/
def yA (i : Nat) : Attendee := ⟨"y" ++ toString i, "M", "junior", "X", true⟩

/-- Scenario attendee `z` (unflagged). -/
def zA : Attendee := ⟨"z", "M", "junior", "X", false⟩

/-- Scenario attendee `p` (unflagged). -/
def pA : Attendee := ⟨"p", "M", "junior", "X", false⟩

/-- Scenario attendee `q` (unflagged). -/
def qA : Attendee := ⟨"q", "M", "junior", "X", false⟩

/-- 38 generic attendees (for the size-balance counterexample). -/
def atts38 : List Attendee := (List.range 38).map mkA

/-- Run of `optimize_seating` on 38 attendees, 15 tables, `min_seats = 2`,
`max_seats = 3`: a returned arrangement whose flexible sizes are seven
3s and seven 2s. -/
def c6run : Except String (List (List Attendee)) :=
  optimize_seating ⟨2, 3⟩ 1 1 1 noRP atts38 15 none [idOracle]

/-- The flexible tables of the arrangement returned by `c6run`. -/
def c6tables : List (List Attendee) :=
  match c6run with
  | .ok arr => arr.tail
  | .error _ => []

/-- A one-event history with two tables: `A,B` together and `C,D`
together. -/
def oneEventHistory : List Event := [[["A", "B"], ["C", "D"]]]

/-- A pairing memory holding the single pair `(A, B)` with the
chronological indicator vector `[1, 0, 0]` (co-seated only at the
oldest of three events). -/
def rpAB : String × String → Option (List ℚ) :=
  fun k => if k = ("A", "B") then some [1, 0, 0] else none

/-- Attendee named `A`. -/
def attA : Attendee := ⟨"A", "F", "senior", "Physics", false⟩

/-- Attendee named `B`. -/
def attB : Attendee := ⟨"B", "M", "junior", "Biology", false⟩

/-- An attendee sharing `attA`'s name with different other fields. -/
def attA2 : Attendee := ⟨"A", "M", "junior", "Chemistry", false⟩

/-! ## Lemmas about the flexible-table construction -/

theorem sizesSum_eq (base extra : Int) :
    ∀ (k i : Nat), sizesSum base extra k i =
      k * base + (min extra ((i : Int) + k) - min extra (i : Int)) := by
  intro k
  induction k with
  | zero => intro i; simp [sizesSum]
  | succ k ih =>
    intro i
    have h1 := ih (i + 1)
    have h2 : ((i + 1 : Nat) : Int) = (i : Int) + 1 := by push_cast; ring
    rw [sizesSum, h1, h2]
    have h3 : tableSize base extra i + min extra (i : Int) =
        base + min extra ((i : Int) + 1) := by
      rw [tableSize]
      rcases le_or_lt extra (i : Int) with hc | hc
      · rw [if_neg (by omega), min_eq_left hc, min_eq_left (by omega)]
        ring
      · rw [if_pos hc, min_eq_right (by omega)]
        rcases le_or_lt extra ((i : Int) + 1) with hc2 | hc2
        · rw [min_eq_left hc2]; ring_nf; omega
        · rw [min_eq_right (by omega)]; ring
    have hm : (((k : Nat) + 1 : Nat) : Int) * base = (k : Int) * base + base := by
      push_cast; ring
    push_cast at hm ⊢
    omega

theorem tableSize_min_le {c : TableConstraints} {base extra : Int} {i : Nat}
    (h : ¬tableSize base extra i < (c.min_seats : Int)) :
    (c.min_seats : Int) ≤ tableSize base extra i := by
  omega

theorem buildLoop_ok {c : TableConstraints} {pool : List Attendee}
    {base extra : Int} :
    ∀ (k i start : Nat) (ts : List (List Attendee)),
      buildLoop c pool base extra k i start = .ok ts →
      (0 ≤ sizesSum base extra k i) ∧
      (start + (sizesSum base extra k i).toNat ≤ pool.length →
        ts.flatten = (pool.drop start).take (sizesSum base extra k i).toNat ∧
          ∀ t ∈ ts, c.min_seats ≤ t.length ∧ t.length ≤ c.max_seats) := by
  intro k
  induction k with
  | zero =>
    intro i start ts h
    simp only [buildLoop] at h
    cases h
    exact ⟨by simp [sizesSum], fun _ => ⟨by simp [sizesSum], by simp⟩⟩
  | succ k ih =>
    intro i start ts h
    rw [buildLoop] at h
    by_cases hmin : tableSize base extra i < (c.min_seats : Int)
    · rw [if_pos hmin] at h; simp at h
    rw [if_neg hmin] at h
    by_cases hmax : (c.max_seats : Int) < tableSize base extra i
    · rw [if_pos hmax] at h; simp at h
    rw [if_neg hmax] at h
    cases hbl : buildLoop c pool base extra k (i + 1)
        (start + (tableSize base extra i).toNat) with
    | error e => rw [hbl] at h; simp at h
    | ok rest =>
      rw [hbl] at h
      simp only [Except.ok.injEq] at h
      subst h
      obtain ⟨hrest0, ihrest⟩ := ih (i + 1) _ rest hbl
      have hsize0 : 0 ≤ tableSize base extra i := by omega
      have hsz : sizesSum base extra (k + 1) i =
          tableSize base extra i + sizesSum base extra k (i + 1) := rfl
      have htn : (sizesSum base extra (k + 1) i).toNat =
          (tableSize base extra i).toNat + (sizesSum base extra k (i + 1)).toNat := by
        rw [hsz, Int.toNat_add hsize0 hrest0]
      refine ⟨by omega, ?_⟩
      intro hlen
      set sz := (tableSize base extra i).toNat with hszdef
      have hlen' : (start + sz) + (sizesSum base extra k (i + 1)).toNat ≤ pool.length := by
        omega
      obtain ⟨hflat, hbounds⟩ := ihrest hlen'
      constructor
      · rw [List.flatten_cons, hflat, htn, List.take_add, List.drop_drop]
      · intro t ht
        rcases List.mem_cons.mp ht with h1 | h1
        · subst h1
          have hlent : ((pool.drop start).take sz).length = sz := by
            rw [List.length_take, List.length_drop]
            omega
          exact ⟨by rw [hlent]; omega, by rw [hlent]; omega⟩
        · exact hbounds t h1

theorem buildLoop_no_zeroDiv {c : TableConstraints} {pool : List Attendee}
    {base extra : Int} :
    ∀ (k i start : Nat),
      buildLoop c pool base extra k i start ≠ .error .zeroDiv := by
  intro k
  induction k with
  | zero => intro i start; simp [buildLoop]
  | succ k ih =>
    intro i start
    rw [buildLoop]
    by_cases hmin : tableSize base extra i < (c.min_seats : Int)
    · rw [if_pos hmin]; simp
    rw [if_neg hmin]
    by_cases hmax : (c.max_seats : Int) < tableSize base extra i
    · rw [if_pos hmax]; simp
    rw [if_neg hmax]
    cases hbl : buildLoop c pool base extra k (i + 1)
        (start + (tableSize base extra i).toNat) with
    | error e =>
      intro hcon
      simp only [hbl] at hcon
      cases hcon
      exact absurd hbl (ih _ _)
    | ok rest => simp [hbl]

theorem buildOtherTables_ok {c : TableConstraints} {remTables : Int}
    {pool : List Attendee} {ts : List (List Attendee)}
    (h : buildOtherTables c remTables pool = .ok ts) :
    (remTables < 0 → ts = []) ∧
      (0 < remTables →
        ts.flatten = pool ∧
          ∀ t ∈ ts, c.min_seats ≤ t.length ∧ t.length ≤ c.max_seats) := by
  rw [buildOtherTables] at h
  split at h
  · exact absurd h (by simp)
  · rename_i hne
    constructor
    · intro hneg
      have hz : remTables.toNat = 0 := by omega
      rw [hz] at h
      simp only [buildLoop] at h
      cases h
      rfl
    · intro hpos
      have hn0 : (0 : Int) ≤ (pool.length : Int) := by positivity
      have hmod0 : 0 ≤ Int.fmod (pool.length : Int) remTables :=
        Int.fmod_nonneg' _ hpos
      have hmodlt : Int.fmod (pool.length : Int) remTables < remTables :=
        Int.fmod_lt_of_pos _ hpos
      have hsum : sizesSum (Int.fdiv (pool.length : Int) remTables)
          (Int.fmod (pool.length : Int) remTables) remTables.toNat 0 =
          (pool.length : Int) := by
        rw [sizesSum_eq]
        have htn : ((remTables.toNat : Nat) : Int) = remTables := by omega
        rw [htn]
        have hdm := Int.fdiv_add_fmod (pool.length : Int) remTables
        have h1 : min (Int.fmod (pool.length : Int) remTables)
            (((0 : Nat) : Int) + remTables) =
            Int.fmod (pool.length : Int) remTables := by
          rw [min_def]
          split_ifs <;> omega
        have h2 : min (Int.fmod (pool.length : Int) remTables) ((0 : Nat) : Int) = 0 := by
          rw [min_def]
          split_ifs <;> omega
        rw [h1, h2]
        have hrw : ((remTables.toNat : Nat) : Int) *
            Int.fdiv (pool.length : Int) remTables =
            remTables * Int.fdiv (pool.length : Int) remTables := by
          rw [htn]
        omega
      have hlen : 0 + (sizesSum (Int.fdiv (pool.length : Int) remTables)
          (Int.fmod (pool.length : Int) remTables) remTables.toNat 0).toNat ≤
          pool.length := by
        rw [hsum]
        omega
      obtain ⟨hflat, hbounds⟩ := (buildLoop_ok _ _ _ _ h).2 hlen
      refine ⟨?_, hbounds⟩
      rw [hflat, hsum]
      simp

/-! ## Lemmas about one search iteration -/

theorem runIteration_ok {c : TableConstraints} {wg ws wf : ℚ}
    {rp : String × String → Option (List ℚ)} {hT oT : List Attendee}
    {rT : Int} {o : IterOracle} {s : ℚ} {arr : List (List Attendee)}
    (h : runIteration c wg ws wf rp hT oT rT o = .ok (s, arr)) :
    ∃ tables,
      arr = currentHead c hT oT o :: tables ∧
        buildOtherTables c rT (o.s2 (remainingPool c hT oT o)) = .ok tables := by
  rw [runIteration] at h
  cases hbt : buildOtherTables c rT (o.s2 (remainingPool c hT oT o)) with
  | error e => rw [hbt] at h; simp at h
  | ok tables =>
    rw [hbt] at h
    simp only [Except.ok.injEq, Prod.mk.injEq] at h
    exact ⟨tables, h.2.symm, rfl⟩

theorem runIteration_no_zeroDiv {c : TableConstraints} {wg ws wf : ℚ}
    {rp : String × String → Option (List ℚ)} {hT oT : List Attendee}
    {rT : Int} {o : IterOracle} (hrT : rT ≠ 0) :
    runIteration c wg ws wf rp hT oT rT o ≠ .error .zeroDiv := by
  rw [runIteration]
  cases hbt : buildOtherTables c rT (o.s2 (remainingPool c hT oT o)) with
  | error e =>
    cases e with
    | valueError => simp
    | zeroDiv =>
      exfalso
      rw [buildOtherTables, if_neg hrT] at hbt
      exact absurd hbt (buildLoop_no_zeroDiv _ _ _)
  | ok tables => simp

/-- Two duplicate-free lists with a sublist-style relation: prepending
`fills` to what is left of `l` after removing `fills` is a permutation
of `l`. -/
theorem fills_filter_perm {fills l : List Attendee} (hl : l.Nodup)
    (hf : fills.Nodup) (hsub : ∀ x ∈ fills, x ∈ l) :
    (fills ++ l.filter (fun a => !(fills.contains a))).Perm l := by
  have h1 : fills.Perm (l.filter (fun a => fills.contains a)) := by
    rw [List.perm_ext_iff_of_nodup hf (hl.filter _)]
    intro a
    simp only [List.mem_filter, List.contains_eq_any_beq, List.any_eq_true, beq_iff_eq]
    constructor
    · intro ha
      exact ⟨hsub a ha, a, ha, rfl⟩
    · rintro ⟨-, x, hx, rfl⟩
      exact hx
  exact (h1.append_right _).trans (List.filter_append_perm _ l)

theorem currentHead_perm {c : TableConstraints} {hT oT : List Attendee}
    {o : IterOracle} (hs1 : ∀ l, (o.s1 l).Perm l) (hoT : oT.Nodup)
    (hdisj : ∀ a ∈ oT, a ∉ hT) :
    (currentHead c hT oT o ++ remainingPool c hT oT o).Perm (hT ++ oT) := by
  rw [remainingPool, currentHead]
  by_cases hlt : hT.length < c.max_seats
  · rw [if_pos hlt]
    set fills := (o.s1 (availableForHead oT)).take (c.max_seats - hT.length) with hfills
    have hfsub : ∀ x ∈ fills, x ∈ oT := by
      intro x hx
      have h1 : x ∈ o.s1 (availableForHead oT) := List.mem_of_mem_take hx
      have h2 : x ∈ availableForHead oT := (hs1 _).mem_iff.mp h1
      exact List.mem_of_mem_filter h2
    have hfnodup : fills.Nodup := by
      have h1 : (availableForHead oT).Nodup := hoT.filter _
      have h2 : (o.s1 (availableForHead oT)).Nodup := ((hs1 _).nodup_iff).mpr h1
      exact (List.take_sublist _ _).nodup h2
    have hffilter : oT.filter (fun a => !((hT ++ fills).contains a)) =
        oT.filter (fun a => !(fills.contains a)) := by
      apply List.filter_congr
      intro a ha
      have hnotmem : a ∉ hT := hdisj a ha
      simp [List.mem_append, hnotmem]
    rw [hffilter, List.append_assoc]
    exact List.Perm.append_left hT (fills_filter_perm hoT hfnodup hfsub)
  · rw [if_neg hlt]
    have hfilter : oT.filter (fun a => !(hT.contains a)) = oT := by
      apply List.filter_eq_self.mpr
      intro a ha
      simp [hdisj a ha]
    rw [hfilter]

/-! ## Lemmas about the search loop -/

theorem searchLoop_ok_mem {c : TableConstraints} {wg ws wf : ℚ}
    {rp : String × String → Option (List ℚ)} {hT oT : List Attendee} {rT : Int} :
    ∀ (os : List IterOracle) (acc : ℚ × List (List Attendee)) (s : ℚ)
      (b : List (List Attendee)),
      searchLoop c wg ws wf rp hT oT rT os acc = .ok (s, b) →
      (s, b) = acc ∨
        ∃ o ∈ os, runIteration c wg ws wf rp hT oT rT o = .ok (s, b) := by
  intro os
  induction os with
  | nil =>
    intro acc s b h
    simp only [searchLoop, Except.ok.injEq] at h
    exact Or.inl h.symm
  | cons o os ih =>
    intro acc s b h
    rw [searchLoop] at h
    cases hit : runIteration c wg ws wf rp hT oT rT o with
    | error e =>
      cases e with
      | zeroDiv => rw [hit] at h; simp at h
      | valueError =>
        rw [hit] at h
        replace h : searchLoop c wg ws wf rp hT oT rT os acc = .ok (s, b) := h
        rcases ih acc s b h with h1 | ⟨o', ho', h2⟩
        · exact Or.inl h1
        · exact Or.inr ⟨o', List.mem_cons_of_mem _ ho', h2⟩
    | ok p =>
      rw [hit] at h
      replace h : searchLoop c wg ws wf rp hT oT rT os
          (if acc.1 < p.1 then p else acc) = .ok (s, b) := h
      rcases ih _ s b h with h1 | ⟨o', ho', h2⟩
      · by_cases hcmp : acc.1 < p.1
        · rw [if_pos hcmp] at h1
          exact Or.inr ⟨o, List.mem_cons_self o os, by rw [hit, h1]⟩
        · rw [if_neg hcmp] at h1
          exact Or.inl h1
      · exact Or.inr ⟨o', List.mem_cons_of_mem _ ho', h2⟩

theorem searchLoop_no_update {c : TableConstraints} {wg ws wf : ℚ}
    {rp : String × String → Option (List ℚ)} {hT oT : List Attendee} {rT : Int} :
    ∀ (os : List IterOracle) (acc : ℚ × List (List Attendee)),
      (∀ o ∈ os, runIteration c wg ws wf rp hT oT rT o ≠ .error .zeroDiv) →
      (∀ o ∈ os, ∀ s' a', runIteration c wg ws wf rp hT oT rT o = .ok (s', a') →
        s' ≤ acc.1) →
      searchLoop c wg ws wf rp hT oT rT os acc = .ok acc := by
  intro os
  induction os with
  | nil => intro acc _ _; rfl
  | cons o os ih =>
    intro acc hz hle
    rw [searchLoop]
    cases hit : runIteration c wg ws wf rp hT oT rT o with
    | error e =>
      cases e with
      | zeroDiv => exact absurd hit (hz o (List.mem_cons_self o os))
      | valueError =>
        exact ih acc (fun o' ho' => hz o' (List.mem_cons_of_mem _ ho'))
          (fun o' ho' => hle o' (List.mem_cons_of_mem _ ho'))
    | ok p =>
      show searchLoop c wg ws wf rp hT oT rT os
          (if acc.1 < p.1 then p else acc) = Except.ok acc
      have hp : p.1 ≤ acc.1 :=
        hle o (List.mem_cons_self o os) p.1 p.2 (by rw [hit])
      rw [if_neg (not_lt.mpr hp)]
      exact ih acc (fun o' ho' => hz o' (List.mem_cons_of_mem _ ho'))
        (fun o' ho' => hle o' (List.mem_cons_of_mem _ ho'))

theorem searchLoop_no_zeroDiv_ok {c : TableConstraints} {wg ws wf : ℚ}
    {rp : String × String → Option (List ℚ)} {hT oT : List Attendee} {rT : Int} :
    ∀ (os : List IterOracle) (acc : ℚ × List (List Attendee)),
      (∀ o ∈ os, runIteration c wg ws wf rp hT oT rT o ≠ .error .zeroDiv) →
      ∃ p, searchLoop c wg ws wf rp hT oT rT os acc = .ok p := by
  intro os
  induction os with
  | nil => intro acc _; exact ⟨acc, rfl⟩
  | cons o os ih =>
    intro acc hz
    rw [searchLoop]
    cases hit : runIteration c wg ws wf rp hT oT rT o with
    | error e =>
      cases e with
      | zeroDiv => exact absurd hit (hz o (List.mem_cons_self o os))
      | valueError => exact ih acc (fun o' ho' => hz o' (List.mem_cons_of_mem _ ho'))
    | ok p =>
      show ∃ q, searchLoop c wg ws wf rp hT oT rT os
          (if acc.1 < p.1 then p else acc) = Except.ok q
      exact ih _ (fun o' ho' => hz o' (List.mem_cons_of_mem _ ho'))

/-- Full characterization of the best-tracking fold: the final value
is either the untouched accumulator (when every completed iteration
scored no higher), or the earliest iteration achieving the maximal
score strictly above the accumulator's. -/
theorem searchLoop_char {c : TableConstraints} {wg ws wf : ℚ}
    {rp : String × String → Option (List ℚ)} {hT oT : List Attendee} {rT : Int} :
    ∀ (os : List IterOracle) (acc : ℚ × List (List Attendee)) (s : ℚ)
      (b : List (List Attendee)),
      searchLoop c wg ws wf rp hT oT rT os acc = .ok (s, b) →
      ((s, b) = acc ∧
        ∀ j o', os.get? j = some o' → ∀ s' a',
          runIteration c wg ws wf rp hT oT rT o' = .ok (s', a') → s' ≤ acc.1) ∨
      (∃ i o', os.get? i = some o' ∧
        runIteration c wg ws wf rp hT oT rT o' = .ok (s, b) ∧ acc.1 < s ∧
        (∀ j o', os.get? j = some o' → ∀ s' a',
          runIteration c wg ws wf rp hT oT rT o' = .ok (s', a') → s' ≤ s) ∧
        (∀ j < i, ∀ o', os.get? j = some o' → ∀ s' a',
          runIteration c wg ws wf rp hT oT rT o' = .ok (s', a') → s' < s)) := by
  intro os
  induction os with
  | nil =>
    intro acc s b h
    simp only [searchLoop, Except.ok.injEq] at h
    refine Or.inl ⟨h.symm, ?_⟩
    intro j o' hj
    simp at hj
  | cons o os ih =>
    intro acc s b h
    rw [searchLoop] at h
    cases hit : runIteration c wg ws wf rp hT oT rT o with
    | error e =>
      cases e with
      | zeroDiv => rw [hit] at h; simp at h
      | valueError =>
        rw [hit] at h
        replace h : searchLoop c wg ws wf rp hT oT rT os acc = .ok (s, b) := h
        rcases ih acc s b h with ⟨h1, h2⟩ | ⟨i, o', hi, hok, hgt, hmax, hfirst⟩
        · refine Or.inl ⟨h1, ?_⟩
          intro j o' hj s' a' hok'
          cases j with
          | zero =>
            simp only [List.get?_cons_zero, Option.some.injEq] at hj
            subst hj
            rw [hit] at hok'
            cases hok'
          | succ j => exact h2 j o' hj s' a' hok'
        · refine Or.inr ⟨i + 1, o', hi, hok, hgt, ?_, ?_⟩
          · intro j o'' hj s' a' hok'
            cases j with
            | zero =>
              simp only [List.get?_cons_zero, Option.some.injEq] at hj
              subst hj
              rw [hit] at hok'
              cases hok'
            | succ j => exact hmax j o'' hj s' a' hok'
          · intro j hji o'' hj s' a' hok'
            cases j with
            | zero =>
              simp only [List.get?_cons_zero, Option.some.injEq] at hj
              subst hj
              rw [hit] at hok'
              cases hok'
            | succ j =>
              exact hfirst j (by omega) o'' hj s' a' hok'
    | ok p =>
      rw [hit] at h
      replace h : searchLoop c wg ws wf rp hT oT rT os
          (if acc.1 < p.1 then p else acc) = .ok (s, b) := h
      by_cases hcmp : acc.1 < p.1
      · rw [if_pos hcmp] at h
        rcases ih p s b h with ⟨h1, h2⟩ | ⟨i, o', hi, hok, hgt, hmax, hfirst⟩
        · have hs : s = p.1 := congrArg Prod.fst h1
          refine Or.inr ⟨0, o, rfl, by rw [hit, h1], by rw [hs]; exact hcmp, ?_, ?_⟩
          · intro j o'' hj s' a' hok'
            cases j with
            | zero =>
              simp only [List.get?_cons_zero, Option.some.injEq] at hj
              subst hj
              rw [hit] at hok'
              simp only [Except.ok.injEq] at hok'
              have hs' : s' = p.1 := (congrArg Prod.fst hok').symm
              simp [hs', hs]
            | succ j =>
              have := h2 j o'' hj s' a' hok'
              rw [hs]
              exact this
          · intro j hj
            omega
        · refine Or.inr ⟨i + 1, o', hi, hok, lt_trans hcmp hgt, ?_, ?_⟩
          · intro j o'' hj s' a' hok'
            cases j with
            | zero =>
              simp only [List.get?_cons_zero, Option.some.injEq] at hj
              subst hj
              rw [hit] at hok'
              simp only [Except.ok.injEq] at hok'
              have hs' : s' = p.1 := (congrArg Prod.fst hok').symm
              rw [hs']
              exact le_of_lt hgt
            | succ j => exact hmax j o'' hj s' a' hok'
          · intro j hji o'' hj s' a' hok'
            cases j with
            | zero =>
              simp only [List.get?_cons_zero, Option.some.injEq] at hj
              subst hj
              rw [hit] at hok'
              simp only [Except.ok.injEq] at hok'
              have hs' : s' = p.1 := (congrArg Prod.fst hok').symm
              rw [hs']
              exact hgt
            | succ j => exact hfirst j (by omega) o'' hj s' a' hok'
      · rw [if_neg hcmp] at h
        rcases ih acc s b h with ⟨h1, h2⟩ | ⟨i, o', hi, hok, hgt, hmax, hfirst⟩
        · refine Or.inl ⟨h1, ?_⟩
          intro j o'' hj s' a' hok'
          cases j with
          | zero =>
            simp only [List.get?_cons_zero, Option.some.injEq] at hj
            subst hj
            rw [hit] at hok'
            simp only [Except.ok.injEq] at hok'
            have hs' : s' = p.1 := (congrArg Prod.fst hok').symm
            rw [hs']
            exact not_lt.mp hcmp
          | succ j => exact h2 j o'' hj s' a' hok'
        · refine Or.inr ⟨i + 1, o', hi, hok, hgt, ?_, ?_⟩
          · intro j o'' hj s' a' hok'
            cases j with
            | zero =>
              simp only [List.get?_cons_zero, Option.some.injEq] at hj
              subst hj
              rw [hit] at hok'
              simp only [Except.ok.injEq] at hok'
              have hs' : s' = p.1 := (congrArg Prod.fst hok').symm
              rw [hs']
              exact le_of_lt (lt_of_le_of_lt (not_lt.mp hcmp) hgt)
            | succ j => exact hmax j o'' hj s' a' hok'
          · intro j hji o'' hj s' a' hok'
            cases j with
            | zero =>
              simp only [List.get?_cons_zero, Option.some.injEq] at hj
              subst hj
              rw [hit] at hok'
              simp only [Except.ok.injEq] at hok'
              have hs' : s' = p.1 := (congrArg Prod.fst hok').symm
              rw [hs']
              exact lt_of_le_of_lt (not_lt.mp hcmp) hgt
            | succ j => exact hfirst j (by omega) o'' hj s' a' hok'

/-! ## Lemmas about `optimize_seating` -/

theorem optimize_seating_ok {c : TableConstraints} {wg ws wf : ℚ}
    {rp : String × String → Option (List ℚ)} {atts : List Attendee}
    {nT : Nat} {ha : Option (List Attendee)} {oracles : List IterOracle}
    {arr : List (List Attendee)}
    (h : optimize_seating c wg ws wf rp atts nT ha oracles = .ok arr) :
    arr ≠ [] ∧ (arr.headD []).length = c.max_seats ∧
      ∃ o ∈ oracles, ∃ s,
        runIteration c wg ws wf rp (effectiveHead atts ha)
          (effectiveOther atts (effectiveHead atts ha)) ((nT : Int) - 1) o =
          .ok (s, arr) := by
  rw [optimize_seating] at h
  by_cases h1 : (atts.length : Int) <
      (c.max_seats : Int) + (c.min_seats : Int) * ((nT : Int) - 1)
  · rw [if_pos h1] at h; simp at h
  rw [if_neg h1] at h
  by_cases h2 : c.max_seats < (effectiveHead atts ha).length
  · rw [if_pos h2] at h; simp at h
  rw [if_neg h2] at h
  cases hsl : searchLoop c wg ws wf rp (effectiveHead atts ha)
      (effectiveOther atts (effectiveHead atts ha)) ((nT : Int) - 1) oracles
      (-1, []) with
  | error e => rw [hsl] at h; simp at h
  | ok p =>
    rw [hsl] at h
    replace h : (if p.2.isEmpty then
        (Except.error infeasibleMsg : Except String (List (List Attendee)))
      else if (p.2.headD []).length ≠ c.max_seats then
        Except.error (headSizeMsg (p.2.headD []).length c.max_seats)
      else Except.ok p.2) = Except.ok arr := h
    by_cases he : p.2.isEmpty
    · rw [if_pos he] at h; simp at h
    rw [if_neg he] at h
    by_cases hhd : (p.2.headD []).length ≠ c.max_seats
    · rw [if_pos hhd] at h; simp at h
    rw [if_neg hhd] at h
    simp only [Except.ok.injEq] at h
    subst h
    refine ⟨by simpa using he, by simpa using hhd, ?_⟩
    rcases searchLoop_ok_mem oracles (-1, []) p.1 p.2 (by rw [hsl]) with h3 | ⟨o, ho, h4⟩
    · exfalso
      have hp2 : p.2 = [] := congrArg Prod.snd h3
      exact he (by simp [hp2])
    · exact ⟨o, ho, p.1, h4⟩

theorem runIteration_ok_rT_ne_zero {c : TableConstraints} {wg ws wf : ℚ}
    {rp : String × String → Option (List ℚ)} {hT oT : List Attendee}
    {rT : Int} {o : IterOracle} {s : ℚ} {arr : List (List Attendee)}
    (h : runIteration c wg ws wf rp hT oT rT o = .ok (s, arr)) : rT ≠ 0 := by
  intro h0
  subst h0
  obtain ⟨tables, _, hbt⟩ := runIteration_ok h
  rw [buildOtherTables, if_pos rfl] at hbt
  cases hbt

theorem runIteration_flatten {c : TableConstraints} {wg ws wf : ℚ}
    {rp : String × String → Option (List ℚ)} {hT oT : List Attendee}
    {rT : Int} {o : IterOracle} {s : ℚ} {arr : List (List Attendee)}
    (hok : runIteration c wg ws wf rp hT oT rT o = .ok (s, arr)) (hrT : 0 ≤ rT)
    (hs1 : ∀ l, (o.s1 l).Perm l) (hs2 : ∀ l, (o.s2 l).Perm l)
    (hoT : oT.Nodup) (hdisj : ∀ a ∈ oT, a ∉ hT) :
    arr.flatten.Perm (hT ++ oT) := by
  obtain ⟨tables, harr, hbt⟩ := runIteration_ok hok
  subst harr
  have hne : rT ≠ 0 := runIteration_ok_rT_ne_zero hok
  have hpos : 0 < rT := by omega
  obtain ⟨hflat, -⟩ := (buildOtherTables_ok hbt).2 hpos
  rw [List.flatten_cons, hflat]
  have hperm : (o.s2 (remainingPool c hT oT o)).Perm (remainingPool c hT oT o) :=
    hs2 _
  exact ((hperm.append_left _).trans (currentHead_perm hs1 hoT hdisj))

theorem effectiveOther_disj {atts hT : List Attendee} :
    ∀ a ∈ effectiveOther atts hT, a ∉ hT := by
  intro a ha
  rw [effectiveOther] at ha
  have := List.of_mem_filter ha
  simpa using this

theorem effectiveHead_sub_perm {atts hT : List Attendee} (hatts : atts.Nodup)
    (hhT : hT.Nodup) (hsub : ∀ x ∈ hT, x ∈ atts) :
    (hT ++ effectiveOther atts hT).Perm atts := by
  rw [effectiveOther]
  exact fills_filter_perm hatts hhT hsub

/-- The two post-loop error messages differ (first characters `H` and
`C`), whatever the numbers interpolated into the head-size message. -/
theorem headSizeMsg_ne_infeasibleMsg (n m : Nat) : headSizeMsg n m ≠ infeasibleMsg := by
  intro h
  have h1 : (headSizeMsg n m).data.headD ' ' = 'H' := by
    rw [headSizeMsg]
    rw [String.data_append, String.data_append, String.data_append]
    rfl
  rw [h] at h1
  exact absurd h1 (by decide)

/-! ## Claim theorems -/

/-- C9 counterexample: two records with the same name but different
other fields are *not* equal under the dataclass `__eq__`, so "equal
iff names equal" fails in the right-to-left direction. -/
theorem attendee_eq_by_name_counterexample :
    attA.name = attA2.name ∧ ¬(attendeeEq attA attA2 = true) := by
  constructor
  · rfl
  · decide

/-- C9 (amended): dataclass equality compares the whole record (equal
records therefore have equal names, but equal names do not suffice),
while `__hash__` depends only on the `name` field. -/
theorem attendee_eq_hash_by_name :
    (∀ a b : Attendee, attendeeEq a b = true ↔ a = b) ∧
      (∀ a b : Attendee, attendeeEq a b = true → a.name = b.name) ∧
      (∀ (h : String → Int) (a b : Attendee), a.name = b.name →
        attendeeHash h a = attendeeHash h b) := by
  refine ⟨?_, ?_, ?_⟩
  · intro a b
    cases a
    cases b
    simp [attendeeEq, Attendee.mk.injEq]
  · intro a b h
    cases a
    cases b
    simp only [attendeeEq, decide_eq_true_eq] at h
    exact h.1
  · intro h a b hname
    rw [attendeeHash, attendeeHash, hname]

/-- C9 witness: the hash clause applied to the two concrete records
with equal names. -/
theorem attendee_eq_hash_by_name_witness :
    attendeeHash (fun s => (s.length : Int)) attA =
      attendeeHash (fun s => (s.length : Int)) attA2 :=
  attendee_eq_hash_by_name.2.2 (fun s => (s.length : Int)) attA attA2 rfl

/-- C7: `optimize_seating` raises a pre-loop `ValueError` — for any
oracle list, i.e. before any iteration runs — whenever
`total_attendees < max_seats + min_seats * (num_tables - 1)` or the
effective fixed head-table list exceeds `max_seats`; and on the
concrete Scenario B (5 attendees, min 4, max 8, 2 tables) the message
is exactly the quoted one. -/
theorem optimize_seating_constraint_error :
    (∀ (c : TableConstraints) (wg ws wf : ℚ)
      (rp : String × String → Option (List ℚ)) (atts : List Attendee)
      (nT : Nat) (ha : Option (List Attendee)) (oracles : List IterOracle),
      ((atts.length : Int) <
          (c.max_seats : Int) + (c.min_seats : Int) * ((nT : Int) - 1) ∨
        c.max_seats < (effectiveHead atts ha).length) →
      optimize_seating c wg ws wf rp atts nT ha oracles =
        (if (atts.length : Int) <
            (c.max_seats : Int) + (c.min_seats : Int) * ((nT : Int) - 1) then
          .error (needMsg ((c.max_seats : Int) + (c.min_seats : Int) * ((nT : Int) - 1))
            c.max_seats c.min_seats ((nT : Int) - 1))
        else .error (tooManyMsg c.max_seats))) ∧
      optimize_seating ⟨4, 8⟩ 1 1 1 noRP ((List.range 5).map mkA) 2 none [idOracle] =
        .error "Need at least 12 attendees: 8 for head table and 4 each for 1 other tables" := by
  constructor
  · intro c wg ws wf rp atts nT ha oracles hcond
    rw [optimize_seating]
    by_cases h1 : (atts.length : Int) <
        (c.max_seats : Int) + (c.min_seats : Int) * ((nT : Int) - 1)
    · rw [if_pos h1, if_pos h1]
    · rw [if_neg h1, if_neg h1]
      have h2 : c.max_seats < (effectiveHead atts ha).length := hcond.resolve_left h1
      rw [if_pos h2]
  · rfl

/-- C7 witness: the general clause applied at Scenario B. -/
theorem optimize_seating_constraint_error_witness :
    optimize_seating ⟨4, 8⟩ 1 1 1 noRP ((List.range 5).map mkA) 2 none [idOracle] =
      (if (((List.range 5).map mkA).length : Int) <
          ((8 : Nat) : Int) + ((4 : Nat) : Int) * (((2 : Nat) : Int) - 1) then
        .error (needMsg (((8 : Nat) : Int) + ((4 : Nat) : Int) * (((2 : Nat) : Int) - 1))
          8 4 (((2 : Nat) : Int) - 1))
      else .error (tooManyMsg 8)) :=
  optimize_seating_constraint_error.1 ⟨4, 8⟩ 1 1 1 noRP ((List.range 5).map mkA)
    2 none [idOracle] (Or.inl (by decide))

theorem runIteration_bounds {c : TableConstraints} {wg ws wf : ℚ}
    {rp : String × String → Option (List ℚ)} {hT oT : List Attendee}
    {rT : Int} {o : IterOracle} {s : ℚ} {arr : List (List Attendee)}
    (hok : runIteration c wg ws wf rp hT oT rT o = .ok (s, arr)) :
    ∀ t ∈ arr.tail, c.min_seats ≤ t.length ∧ t.length ≤ c.max_seats := by
  obtain ⟨tables, harr, hbt⟩ := runIteration_ok hok
  subst harr
  intro t ht
  rw [List.tail_cons] at ht
  have hne := runIteration_ok_rT_ne_zero hok
  rcases lt_trichotomy rT 0 with hneg | hzero | hpos
  · have hnil : tables = [] := (buildOtherTables_ok hbt).1 hneg
    rw [hnil] at ht
    cases ht
  · exact absurd hzero hne
  · exact ((buildOtherTables_ok hbt).2 hpos).2 t ht

/-- C2: every arrangement returned by `optimize_seating` has a head
table (table 0) of size exactly `max_seats`, and every flexible table
of size within `[min_seats, max_seats]`. -/
theorem optimize_seating_table_sizes {c : TableConstraints} {wg ws wf : ℚ}
    {rp : String × String → Option (List ℚ)} {atts : List Attendee}
    {nT : Nat} {ha : Option (List Attendee)} {oracles : List IterOracle}
    {arr : List (List Attendee)}
    (h : optimize_seating c wg ws wf rp atts nT ha oracles = .ok arr) :
    arr ≠ [] ∧ (arr.headD []).length = c.max_seats ∧
      ∀ t ∈ arr.tail, c.min_seats ≤ t.length ∧ t.length ≤ c.max_seats := by
  obtain ⟨hne, hhead, o, ho, s, hrun⟩ := optimize_seating_ok h
  exact ⟨hne, hhead, runIteration_bounds hrun⟩

/-- C1 (amended): provided `num_tables ≥ 1` and the effective fixed
head list is duplicate-free and drawn from the input, every returned
arrangement seats exactly the input attendees — no loss, no
duplication (stated as a permutation of the input list). -/
theorem optimize_seating_population {c : TableConstraints} {wg ws wf : ℚ}
    {rp : String × String → Option (List ℚ)} {atts : List Attendee}
    {nT : Nat} {ha : Option (List Attendee)} {oracles : List IterOracle}
    {arr : List (List Attendee)}
    (hnames : (atts.map Attendee.name).Nodup)
    (hhT : (effectiveHead atts ha).Nodup)
    (hsub : ∀ x ∈ effectiveHead atts ha, x ∈ atts)
    (hnT : 1 ≤ nT)
    (horacles : ∀ o ∈ oracles, (∀ l, (o.s1 l).Perm l) ∧ (∀ l, (o.s2 l).Perm l))
    (h : optimize_seating c wg ws wf rp atts nT ha oracles = .ok arr) :
    arr.flatten.Perm atts := by
  obtain ⟨-, -, o, ho, s, hrun⟩ := optimize_seating_ok h
  have hatts : atts.Nodup := hnames.of_map
  have hoT : (effectiveOther atts (effectiveHead atts ha)).Nodup := by
    rw [effectiveOther]
    exact hatts.filter _
  have hdisj := @effectiveOther_disj atts (effectiveHead atts ha)
  have hrT : (0 : Int) ≤ (nT : Int) - 1 := by omega
  have h1 := runIteration_flatten hrun hrT (horacles o ho).1 (horacles o ho).2 hoT hdisj
  exact h1.trans (effectiveHead_sub_perm hatts hhT hsub)

/-- C8 (amended): when no explicit `head_table_assignments` override
is supplied (the argument is `None` or an empty, hence falsy, list),
every input attendee whose `assign_head_table` flag is set appears in
table 0 of any returned arrangement. -/
theorem optimize_seating_flagged_in_head {c : TableConstraints} {wg ws wf : ℚ}
    {rp : String × String → Option (List ℚ)} {atts : List Attendee}
    {nT : Nat} {ha : Option (List Attendee)} {oracles : List IterOracle}
    {arr : List (List Attendee)}
    (hha : ha = none ∨ ha = some [])
    (h : optimize_seating c wg ws wf rp atts nT ha oracles = .ok arr) :
    ∀ x ∈ atts, x.assign_head_table = true → x ∈ arr.headD [] := by
  obtain ⟨-, -, o, ho, s, hrun⟩ := optimize_seating_ok h
  obtain ⟨tables, harr, -⟩ := runIteration_ok hrun
  intro x hx hflag
  have hhT : x ∈ effectiveHead atts ha := by
    rcases hha with h1 | h1 <;> subst h1 <;>
      simp [effectiveHead, List.mem_filter, hx, hflag]
  rw [harr]
  show x ∈ currentHead c (effectiveHead atts ha)
    (effectiveOther atts (effectiveHead atts ha)) o
  rw [currentHead]
  split
  · exact List.mem_append_left _ hhT
  · exact hhT

section ConcreteEvaluation

attribute [local semireducible] Rat.add Rat.mul Rat.sub Rat.inv

set_option maxRecDepth 100000

/-- C2 witness: a concrete successful run (4 attendees, 2 tables of
exactly 2 seats) satisfies the size bounds. -/
theorem optimize_seating_table_sizes_witness :
    ([[mkA 0, mkA 1], [mkA 2, mkA 3]] : List (List Attendee)) ≠ [] ∧
      (([[mkA 0, mkA 1], [mkA 2, mkA 3]] : List (List Attendee)).headD []).length =
        (2 : Nat) ∧
      ∀ t ∈ ([[mkA 0, mkA 1], [mkA 2, mkA 3]] : List (List Attendee)).tail,
        (2 : Nat) ≤ t.length ∧ t.length ≤ (2 : Nat) :=
  @optimize_seating_table_sizes ⟨2, 2⟩ 1 1 1 noRP atts4 2 none [idOracle]
    [[mkA 0, mkA 1], [mkA 2, mkA 3]] (by rfl)

/-- C1 counterexample: with `num_tables = 0` (and enough attendees for
the degenerate bound `max_seats - min_seats`), the code returns an
arrangement consisting of the head table alone and silently drops the
remaining attendee, so the returned tables are not a permutation of
the input. -/
theorem optimize_seating_population_counterexample :
    optimize_seating ⟨2, 3⟩ 1 1 1 noRP atts4 0 none [idOracle] =
        .ok [[mkA 0, mkA 1, mkA 2]] ∧
      ¬(([[mkA 0, mkA 1, mkA 2]] : List (List Attendee)).flatten).Perm atts4 := by
  constructor
  · rfl
  · decide

/-- C1 witness: the amended theorem applied to a concrete run. -/
theorem optimize_seating_population_witness :
    (([[mkA 0, mkA 1], [mkA 2, mkA 3]] : List (List Attendee)).flatten).Perm atts4 :=
  @optimize_seating_population ⟨2, 2⟩ 1 1 1 noRP atts4 2 none [idOracle]
    [[mkA 0, mkA 1], [mkA 2, mkA 3]]
    (by decide) (by decide) (by decide) (by decide)
    (by
      intro o ho
      rw [List.mem_singleton] at ho
      subst ho
      exact ⟨fun l => List.Perm.refl l, fun l => List.Perm.refl l⟩)
    (by rfl)

/-- C8 counterexample: an explicit `head_table_assignments` override
that omits a pre-flagged attendee seats that attendee at a flexible
table: the returned table 0 does not contain them. -/
theorem optimize_seating_flagged_in_head_counterexample :
    optimize_seating ⟨2, 2⟩ 1 1 1 noRP [xA, yA 1, pA, qA] 2 (some [xA]) [idOracle] =
        .ok [[xA, pA], [yA 1, qA]] ∧
      (yA 1).assign_head_table = true ∧ yA 1 ∉ ([xA, pA] : List Attendee) := by
  refine ⟨by rfl, by decide, by decide⟩

/-- C8 witness: the amended theorem applied to a concrete run with a
flagged attendee and no override. -/
theorem optimize_seating_flagged_in_head_witness :
    yA 1 ∈ (([[yA 1, pA], [qA, zA]] : List (List Attendee)).headD []) :=
  @optimize_seating_flagged_in_head ⟨2, 2⟩ 1 1 1 noRP [yA 1, pA, qA, zA] 2
    none [idOracle] [[yA 1, pA], [qA, zA]] (Or.inl rfl) (by rfl)
    (yA 1) (by decide) (by decide)

end ConcreteEvaluation

/-- C3 (amended): after the pre-loop validations pass and with
`num_tables ≠ 1` (at `num_tables = 1` every iteration divides by
zero), `optimize_seating` raises the infeasibility error exactly when
no iteration completed with a composite score above the initial `-1`
sentinel; otherwise, taking the earliest iteration achieving the
maximal composite score, it returns that arrangement when its head
table has exactly `max_seats` members and raises the head-size error
otherwise. -/
theorem optimize_seating_best_selection {c : TableConstraints} {wg ws wf : ℚ}
    {rp : String × String → Option (List ℚ)} {atts : List Attendee}
    {nT : Nat} {ha : Option (List Attendee)} {oracles : List IterOracle}
    (hnT : nT ≠ 1)
    (h1 : ¬((atts.length : Int) <
      (c.max_seats : Int) + (c.min_seats : Int) * ((nT : Int) - 1)))
    (h2 : ¬(c.max_seats < (effectiveHead atts ha).length)) :
    (optimize_seating c wg ws wf rp atts nT ha oracles = .error infeasibleMsg ↔
      ∀ o ∈ oracles, ∀ (s : ℚ) (arr : List (List Attendee)),
        runIteration c wg ws wf rp (effectiveHead atts ha)
          (effectiveOther atts (effectiveHead atts ha)) ((nT : Int) - 1) o =
          .ok (s, arr) → s ≤ -1) ∧
    (¬(∀ o ∈ oracles, ∀ (s : ℚ) (arr : List (List Attendee)),
        runIteration c wg ws wf rp (effectiveHead atts ha)
          (effectiveOther atts (effectiveHead atts ha)) ((nT : Int) - 1) o =
          .ok (s, arr) → s ≤ -1) →
      ∃ (i : Nat) (o : IterOracle) (s : ℚ) (arr : List (List Attendee)),
        oracles.get? i = some o ∧
        runIteration c wg ws wf rp (effectiveHead atts ha)
          (effectiveOther atts (effectiveHead atts ha)) ((nT : Int) - 1) o =
          .ok (s, arr) ∧
        -1 < s ∧
        (∀ (j : Nat) (o' : IterOracle), oracles.get? j = some o' →
          ∀ (s' : ℚ) (a' : List (List Attendee)),
            runIteration c wg ws wf rp (effectiveHead atts ha)
              (effectiveOther atts (effectiveHead atts ha)) ((nT : Int) - 1) o' =
              .ok (s', a') → s' ≤ s) ∧
        (∀ j < i, ∀ (o' : IterOracle), oracles.get? j = some o' →
          ∀ (s' : ℚ) (a' : List (List Attendee)),
            runIteration c wg ws wf rp (effectiveHead atts ha)
              (effectiveOther atts (effectiveHead atts ha)) ((nT : Int) - 1) o' =
              .ok (s', a') → s' < s) ∧
        optimize_seating c wg ws wf rp atts nT ha oracles =
          (if (arr.headD []).length = c.max_seats then .ok arr
            else .error (headSizeMsg (arr.headD []).length c.max_seats))) := by
  have hrT : ((nT : Int) - 1) ≠ 0 := by omega
  have hz : ∀ o ∈ oracles,
      runIteration c wg ws wf rp (effectiveHead atts ha)
        (effectiveOther atts (effectiveHead atts ha)) ((nT : Int) - 1) o ≠
        .error .zeroDiv := fun o _ => runIteration_no_zeroDiv hrT
  obtain ⟨p, hsl⟩ := searchLoop_no_zeroDiv_ok oracles (-1, []) hz
  have hopt : optimize_seating c wg ws wf rp atts nT ha oracles =
      (if p.2.isEmpty then .error infeasibleMsg
        else if (p.2.headD []).length ≠ c.max_seats then
          .error (headSizeMsg (p.2.headD []).length c.max_seats)
        else .ok p.2) := by
    rw [optimize_seating, if_neg h1, if_neg h2, hsl]
  constructor
  · constructor
    · intro hR
      rw [hopt] at hR
      by_cases he : p.2.isEmpty
      · have hp2 : p.2 = [] := List.isEmpty_iff.mp he
        rcases searchLoop_char oracles (-1, []) p.1 p.2 (by rw [hsl]) with
          ⟨-, hall⟩ | ⟨i, o', hi, hok, -, -, -⟩
        · intro o ho s arr hrn
          obtain ⟨j, hj⟩ := List.get?_of_mem ho
          exact hall j o hj s arr hrn
        · exfalso
          obtain ⟨tables, harr, -⟩ := runIteration_ok hok
          rw [hp2] at harr
          cases harr
      · exfalso
        rw [if_neg he] at hR
        by_cases hhd : (p.2.headD []).length ≠ c.max_seats
        · rw [if_pos hhd] at hR
          simp only [Except.error.injEq] at hR
          exact headSizeMsg_ne_infeasibleMsg _ _ hR
        · rw [if_neg hhd] at hR
          cases hR
    · intro hall
      have hnu := searchLoop_no_update oracles (-1, []) hz hall
      rw [hsl] at hnu
      simp only [Except.ok.injEq] at hnu
      rw [hopt, hnu]
      rfl
  · intro hnall
    rcases searchLoop_char oracles (-1, []) p.1 p.2 (by rw [hsl]) with
      ⟨-, hall⟩ | ⟨i, o', hi, hok, hgt, hmax, hfirst⟩
    · exfalso
      apply hnall
      intro o ho s arr hrn
      obtain ⟨j, hj⟩ := List.get?_of_mem ho
      exact hall j o hj s arr hrn
    · refine ⟨i, o', p.1, p.2, hi, hok, hgt, hmax, hfirst, ?_⟩
      rw [hopt]
      obtain ⟨tables, harr, -⟩ := runIteration_ok hok
      have hne : ¬p.2.isEmpty := by
        rw [harr]
        simp
      rw [if_neg hne]
      by_cases hhd : (p.2.headD []).length = c.max_seats
      · rw [if_neg (by omega), if_pos hhd]
      · rw [if_pos hhd, if_neg hhd]

section ConcreteEvaluationTwo

attribute [local semireducible] Rat.add Rat.mul Rat.sub Rat.inv

set_option maxRecDepth 100000

/-- C3 counterexample: a run in which every iteration completes (one
iteration, producing a scored arrangement whose head table is short
because the explicit override leaves only one non-flagged candidate
fill), yet the function raises the head-table-size error rather than
the infeasibility error, and returns nothing. -/
theorem optimize_seating_best_selection_counterexample :
    optimize_seating ⟨2, 3⟩ 1 1 1 noRP [xA, yA 1, yA 2, yA 3, zA] 2
        (some [xA]) [idOracle] = .error (headSizeMsg 2 3) ∧
      headSizeMsg 2 3 ≠ infeasibleMsg := by
  constructor
  · rfl
  · exact headSizeMsg_ne_infeasibleMsg 2 3

end ConcreteEvaluationTwo

/-- C3 witness: the amended characterization applied at a concrete
input (zero iterations, so the infeasibility error is raised and the
right-hand side holds vacuously). -/
theorem optimize_seating_best_selection_witness :
    optimize_seating ⟨2, 2⟩ 1 1 1 noRP atts4 2 none [] = .error infeasibleMsg ↔
      ∀ o ∈ ([] : List IterOracle), ∀ (s : ℚ) (arr : List (List Attendee)),
        runIteration ⟨2, 2⟩ 1 1 1 noRP (effectiveHead atts4 none)
          (effectiveOther atts4 (effectiveHead atts4 none))
          (((2 : Nat) : Int) - 1) o = .ok (s, arr) → s ≤ -1 :=
  (@optimize_seating_best_selection ⟨2, 2⟩ 1 1 1 noRP atts4 2 none []
    (by decide) (by decide) (by decide)).1

theorem pairsOf_map_abs_sum : ∀ l : List Int,
    ((pairsOf l).map (fun p => |p.1 - p.2|)).sum = pairwiseAbsSum l := by
  intro l
  induction l with
  | nil => rfl
  | cons x xs ih =>
    rw [pairsOf, pairwiseAbsSum, List.map_append, List.sum_append, List.map_map, ← ih]
    rfl

theorem pairsOf_eq_nil_iff {α} : ∀ l : List α, pairsOf l = [] ↔ l.length ≤ 1 := by
  intro l
  cases l with
  | nil => simp [pairsOf]
  | cons x xs =>
    cases xs with
    | nil => simp [pairsOf]
    | cons y ys => simp [pairsOf]

/-- C6 (amended): the size-balance score used in every sampled
arrangement's composite score equals `1` when there are fewer than two
flexible tables, and otherwise equals exactly
`1 - (sum of pairwise absolute size differences) / (num_flexible_tables * max_seats)`
with *no* clamping (so it can be negative). -/
theorem sizeBalanceScore_eq {c : TableConstraints} {ts : List (List Attendee)} :
    (ts.length ≤ 1 → sizeBalanceScore c ts = 1) ∧
      (2 ≤ ts.length → sizeBalanceScore c ts =
        1 - ((pairwiseAbsSum (ts.map (fun t => (t.length : Int))) : Int) : ℚ) /
          ((ts.length : ℚ) * (c.max_seats : ℚ))) := by
  constructor
  · intro hle
    rw [sizeBalanceScore]
    have h1 : pairsOf (ts.map (fun t => (t.length : Int))) = [] := by
      rw [pairsOf_eq_nil_iff, List.length_map]
      exact hle
    rw [h1]
    rfl
  · intro hge
    rw [sizeBalanceScore]
    have h1 : ¬(pairsOf (ts.map (fun t => (t.length : Int))) = []) := by
      rw [pairsOf_eq_nil_iff, List.length_map]
      omega
    have h2 : ¬((pairsOf (ts.map (fun t => (t.length : Int)))).map
        (fun p => ((|p.1 - p.2| : Int) : ℚ))).isEmpty := by
      simpa [List.isEmpty_iff] using h1
    rw [if_neg h2]
    congr 1
    rw [← pairsOf_map_abs_sum (ts.map (fun t => (t.length : Int))),
      Int.cast_list_sum, List.map_map]
    rfl

section ConcreteEvaluationThree

attribute [local semireducible] Rat.add Rat.mul Rat.sub Rat.inv

set_option maxRecDepth 100000

/-- C6 counterexample: a returned arrangement (38 attendees, 15
tables, `min_seats = 2`, `max_seats = 3`) whose 14 flexible tables are
seven of size 3 and seven of size 2, giving size-balance score
`1 - 49/42 = -1/6 < 0`: the score is not clamped at 0. -/
theorem sizeBalanceScore_counterexample :
    c6run = .ok ((atts38.take 3) :: c6tables) ∧
      sizeBalanceScore ⟨2, 3⟩ c6tables < 0 := by
  constructor
  · rfl
  · decide

end ConcreteEvaluationThree

/-- C6 witness: the amended formula applied to two concrete flexible
tables of sizes 2 and 3. -/
theorem sizeBalanceScore_eq_witness :
    sizeBalanceScore ⟨2, 3⟩ [[mkA 0, mkA 1], [mkA 2, mkA 3, mkA 4]] =
      1 - ((pairwiseAbsSum (([[mkA 0, mkA 1], [mkA 2, mkA 3, mkA 4]] :
          List (List Attendee)).map (fun t => (t.length : Int))) : Int) : ℚ) /
        ((([[mkA 0, mkA 1], [mkA 2, mkA 3, mkA 4]] :
          List (List Attendee)).length : ℚ) * ((3 : Nat) : ℚ)) :=
  (@sizeBalanceScore_eq ⟨2, 3⟩ [[mkA 0, mkA 1], [mkA 2, mkA 3, mkA 4]]).2
    (by decide)

theorem filterMap_eq_filter_map {α β : Type} (f : α → Option β) (d : β) :
    ∀ l : List α, l.filterMap f =
      (l.filter (fun x => (f x).isSome)).map (fun x => (f x).getD d) := by
  intro l
  induction l with
  | nil => rfl
  | cons x xs ih =>
    cases hf : f x with
    | none => simp [List.filterMap_cons, List.filter_cons, hf, ih]
    | some b => simp [List.filterMap_cons, List.filter_cons, hf, ih]

/-- C4 (amended): the implemented recency penalty equals the reference
definition with the time weights applied *chronologically* — `1.0` on
the oldest slot of the pair's indicator vector, `0.6` on the second,
`0.3` on the third — averaged over exactly the in-table pairs the
memory has a vector for, `1.0` when there is no such pair, and `0` for
tables below `min_seats` (the dataclass invariant `min_seats ≥ 2` is
assumed as `1 ≤ min_seats` so that the empty-table guard coincides). -/
theorem penalty_eq_ref_chrono {c : TableConstraints} (hmin : 1 ≤ c.min_seats) :
    ∀ (table : List Attendee) (rp : String × String → Option (List ℚ)),
      calculate_time_weighted_penalty c table rp =
        refPenalty refWeightedChrono c.min_seats table rp := by
  intro table rp
  simp only [calculate_time_weighted_penalty, refPenalty]
  by_cases hlen : table.length < c.min_seats
  · rw [if_pos hlen, if_pos (Or.inr hlen)]
  · have hne : ¬(table.isEmpty ∨ table.length < c.min_seats) := by
      rintro (he | hl)
      · rw [List.isEmpty_iff] at he
        rw [he] at hlen
        simp at hlen
        omega
      · exact hlen hl
    rw [if_neg hne, if_neg hlen]
    have hfm := filterMap_eq_filter_map
      (fun pq => rp (sortPair pq.1.name pq.2.name)) ([] : List ℚ) (pairsOf table)
    rw [hfm]
    set withHist := (pairsOf table).filter
      (fun pq => (rp (sortPair pq.1.name pq.2.name)).isSome) with hwh
    rw [List.length_map, List.map_map]
    by_cases hempty : withHist.length = 0
    · rw [if_pos hempty,
        if_pos (by rw [List.isEmpty_iff, ← List.length_eq_zero]; exact hempty)]
    · rw [if_neg hempty,
        if_neg (by
          rw [List.isEmpty_iff, ← List.length_eq_zero]
          exact hempty)]
      rfl

section ConcreteEvaluationFour

attribute [local semireducible] Rat.add Rat.mul Rat.sub Rat.inv

/-- C4 counterexample: a two-person table whose pair has the
chronological vector `[1, 0, 0]` (co-seated only at the *oldest* of
three remembered events).  The code weights that slot `1.0` and yields
penalty `0`, while the spec's most-recent-first weighting yields
`max(0, 1 - 0.3) = 0.7`. -/
theorem penalty_most_recent_counterexample :
    calculate_time_weighted_penalty ⟨2, 8⟩ [attA, attB] rpAB = 0 ∧
      refPenalty refWeightedMostRecent 2 [attA, attB] rpAB = 7/10 ∧
      calculate_time_weighted_penalty ⟨2, 8⟩ [attA, attB] rpAB ≠
        refPenalty refWeightedMostRecent 2 [attA, attB] rpAB := by
  refine ⟨?_, ?_, ?_⟩ <;> decide

end ConcreteEvaluationFour

/-- C4 witness: the amended equality at the same concrete input. -/
theorem penalty_eq_ref_chrono_witness :
    calculate_time_weighted_penalty ⟨2, 8⟩ [attA, attB] rpAB =
      refPenalty refWeightedChrono 2 [attA, attB] rpAB :=
  @penalty_eq_ref_chrono ⟨2, 8⟩ (by decide) [attA, attB] rpAB

/-! ## Lemmas about the pairing dict -/

theorem charsLe_total : ∀ x y : List Char, charsLe x y = true ∨ charsLe y x = true := by
  intro x
  induction x with
  | nil => intro y; left; rfl
  | cons c cs ih =>
    intro y
    cases y with
    | nil => right; rfl
    | cons d ds =>
      rw [charsLe, charsLe]
      rcases Nat.lt_trichotomy c.toNat d.toNat with hlt | heq | hgt
      · left
        rw [if_pos hlt]
      · rw [if_neg (by omega), if_neg (by omega), if_neg (by omega), if_neg (by omega)]
        exact ih ds
      · right
        rw [if_pos hgt]

theorem charsLe_antisymm : ∀ x y : List Char,
    charsLe x y = true → charsLe y x = true → x = y := by
  intro x
  induction x with
  | nil =>
    intro y _ hyx
    cases y with
    | nil => rfl
    | cons d ds => exact absurd hyx (by rw [charsLe]; simp)
  | cons c cs ih =>
    intro y hxy hyx
    cases y with
    | nil => exact absurd hxy (by rw [charsLe]; simp)
    | cons d ds =>
      rw [charsLe] at hxy hyx
      by_cases h1 : c.toNat < d.toNat
      · rw [if_neg (by omega), if_pos h1] at hyx
        cases hyx
      · by_cases h2 : d.toNat < c.toNat
        · rw [if_pos h2] at hyx
          rw [if_neg h1, if_pos h2] at hxy
          cases hxy
        · rw [if_neg h1, if_neg h2] at hxy
          rw [if_neg h2, if_neg h1] at hyx
          have htn : c.toNat = d.toNat := by omega
          have hcd : c = d := Char.ext (UInt32.toNat.inj htn)
          subst hcd
          rw [ih ds hxy hyx]

theorem mem_pairsOf {α : Type} : ∀ {l : List α} {p : α × α},
    p ∈ pairsOf l → p.1 ∈ l ∧ p.2 ∈ l := by
  intro l
  induction l with
  | nil => intro p hp; cases hp
  | cons x xs ih =>
    intro p hp
    rw [pairsOf, List.mem_append] at hp
    rcases hp with hp | hp
    · obtain ⟨y, hy, rfl⟩ := List.mem_map.mp hp
      exact ⟨List.mem_cons_self _ _, List.mem_cons_of_mem _ hy⟩
    · obtain ⟨h1, h2⟩ := ih hp
      exact ⟨List.mem_cons_of_mem _ h1, List.mem_cons_of_mem _ h2⟩

theorem sortPair_comm (a b : String) : sortPair a b = sortPair b a := by
  rw [sortPair, sortPair]
  by_cases hab : charsLe a.data b.data
  · by_cases hba : charsLe b.data a.data
    · have hdata : a.data = b.data := charsLe_antisymm _ _ hab hba
      have hab2 : a = b := by
        cases a
        cases b
        exact congrArg String.mk (by simpa using hdata)
      subst hab2
      rw [if_pos hab]
    · rw [if_pos hab, if_neg hba]
  · have hba : charsLe b.data a.data = true :=
      (charsLe_total a.data b.data).resolve_left hab
    rw [if_neg hab, if_pos hba]

theorem sortPair_eq_cases {x y a b : String} (h : sortPair x y = sortPair a b) :
    (x = a ∧ y = b) ∨ (x = b ∧ y = a) := by
  rw [sortPair, sortPair] at h
  split at h <;> split at h <;>
    simp only [Prod.mk.injEq] at h <;> tauto

theorem pairsOf_mem {α : Type} [DecidableEq α] :
    ∀ {l : List α} {a b : α}, a ∈ l → b ∈ l → a ≠ b →
      (a, b) ∈ pairsOf l ∨ (b, a) ∈ pairsOf l := by
  intro l
  induction l with
  | nil => intro a b ha _ _; cases ha
  | cons x xs ih =>
    intro a b ha hb hne
    rw [pairsOf]
    rcases List.mem_cons.mp ha with rfl | ha'
    · rcases List.mem_cons.mp hb with rfl | hb'
      · exact absurd rfl hne
      · left
        rw [List.mem_append]
        left
        exact List.mem_map.mpr ⟨b, hb', rfl⟩
    · rcases List.mem_cons.mp hb with rfl | hb'
      · right
        rw [List.mem_append]
        left
        exact List.mem_map.mpr ⟨a, ha', rfl⟩
      · rcases ih ha' hb' hne with h1 | h1
        · left
          rw [List.mem_append]
          right
          exact h1
        · right
          rw [List.mem_append]
          right
          exact h1

theorem pairsOf_nodup_ne {α : Type} :
    ∀ {l : List α}, l.Nodup → ∀ {p : α × α}, p ∈ pairsOf l → p.1 ≠ p.2 := by
  intro l
  induction l with
  | nil => intro _ p hp; cases hp
  | cons x xs ih =>
    intro hnd p hp
    rw [pairsOf, List.mem_append] at hp
    rcases hp with hp | hp
    · obtain ⟨y, hy, rfl⟩ := List.mem_map.mp hp
      intro hcon
      have hxy : x = y := hcon
      rw [← hxy] at hy
      exact (List.nodup_cons.mp hnd).1 hy
    · exact ih (List.nodup_cons.mp hnd).2 hp

theorem dlookup_const_map {γ : Type} :
    ∀ (L : List γ) (K : γ → String × String) (v : List ℚ) (k : String × String),
      dlookup (L.map (fun x => (K x, v))) k =
        if L.any (fun x => K x = k) then some v else none := by
  intro L
  induction L with
  | nil => intro K v k; rfl
  | cons x xs ih =>
    intro K v k
    rw [List.map_cons, dlookup]
    by_cases hx : K x = k
    · rw [if_pos hx]
      have : (x :: xs).any (fun x => K x = k) = true := by
        simp [hx]
      rw [if_pos this]
    · rw [if_neg hx, ih]
      by_cases hxs : xs.any (fun x => K x = k)
      · rw [if_pos hxs, if_pos (by simp [List.any_cons, hxs])]
      · rw [if_neg hxs, if_neg (by simp [List.any_cons, hxs, hx])]

theorem dlookup_setSlot (d : PairDict) (k' k : String × String) (idx : Nat) :
    dlookup (setSlot d k' idx) k =
      if k' = k then (dlookup d k).map (fun v => v.set idx 1)
      else dlookup d k := by
  induction d with
  | nil =>
    rw [setSlot, List.map_nil, dlookup]
    split <;> rfl
  | cons e es ih =>
    rw [setSlot, List.map_cons]
    rw [setSlot] at ih
    by_cases hek : e.1 = k
    · by_cases hek' : e.1 = k'
      · have hkk : k' = k := by rw [← hek', hek]
        rw [if_pos hek', if_pos hkk, dlookup, dlookup]
        rw [if_pos hek, if_pos hek]
        rfl
      · have hkk : ¬k' = k := by
          intro hcon
          rw [hcon] at hek'
          exact hek' hek
        rw [if_neg hek', if_neg hkk, dlookup, dlookup, if_pos hek, if_pos hek]
    · by_cases hek' : e.1 = k'
      · rw [if_pos hek', dlookup, dlookup, if_neg hek, if_neg hek, ih]
      · rw [if_neg hek', dlookup, dlookup, if_neg hek, if_neg hek, ih]

theorem dlookup_foldSet (idx : Nat) :
    ∀ (K : List (String × String)) (d : PairDict) (k : String × String),
      dlookup (K.foldl (fun d k' => setSlot d k' idx) d) k =
        if K.any (fun k' => k' = k) then (dlookup d k).map (fun v => v.set idx 1)
        else dlookup d k := by
  intro K
  induction K with
  | nil =>
    intro d k
    rw [List.foldl_nil, List.any_nil]
    rfl
  | cons k0 K' ih =>
    intro d k
    rw [List.foldl_cons, ih, dlookup_setSlot, List.any_cons]
    by_cases h0 : k0 = k
    · rw [if_pos h0]
      by_cases hK : K'.any (fun k' => k' = k)
      · rw [if_pos hK, if_pos (by simp [h0]), Option.map_map]
        congr 1
        funext v
        simp [Function.comp, List.set_set]
      · rw [if_neg hK, if_pos (by simp [h0])]
    · rw [if_neg h0]
      by_cases hK : K'.any (fun k' => k' = k)
      · rw [if_pos hK, if_pos (by simp [hK])]
      · rw [if_neg hK, if_neg (by simp [hK, h0])]

theorem dlookup_applyEvent (idx : Nat) :
    ∀ (ev : Event) (d : PairDict) (k : String × String),
      dlookup (applyEvent d idx ev) k =
        (dlookup d k).map (fun v => if evKeyB ev k then v.set idx 1 else v) := by
  intro ev
  induction ev with
  | nil =>
    intro d k
    rw [applyEvent, List.foldl_nil, evKeyB]
    cases hdk : dlookup d k <;> simp
  | cons t ev' ih =>
    intro d k
    rw [applyEvent, List.foldl_cons]
    simp only [applyEvent] at ih
    rw [ih, dlookup_foldSet]
    have hany : ((pairsOf t).map (fun pq => sortPair pq.1 pq.2)).any
        (fun k' => k' = k) = (pairsOf t).any (fun pq => sortPair pq.1 pq.2 = k) := by
      rw [List.any_map]
      rfl
    rw [hany]
    have hevk : evKeyB (t :: ev') k =
        ((pairsOf t).any (fun pq => sortPair pq.1 pq.2 = k) || evKeyB ev' k) := by
      rw [evKeyB, evKeyB, List.any_cons]
    rw [hevk]
    cases hdk : dlookup d k with
    | none =>
      by_cases h1 : (pairsOf t).any (fun pq => sortPair pq.1 pq.2 = k) <;> simp [h1]
    | some v =>
      by_cases h1 : (pairsOf t).any (fun pq => sortPair pq.1 pq.2 = k) <;>
        by_cases h2 : evKeyB ev' k <;>
          simp [h1, h2, List.set_set]

theorem dlookup_fold_applyEvent :
    ∀ (L : List (Nat × Event)) (d : PairDict) (k : String × String),
      dlookup (L.foldl (fun d p => applyEvent d p.1 p.2) d) k =
        (dlookup d k).map
          (fun v => L.foldl (fun v p => if evKeyB p.2 k then v.set p.1 1 else v) v) := by
  intro L
  induction L with
  | nil =>
    intro d k
    rw [List.foldl_nil]
    cases hdk : dlookup d k <;> simp
  | cons p L' ih =>
    intro d k
    rw [List.foldl_cons, ih, dlookup_applyEvent, Option.map_map]
    cases hdk : dlookup d k
    · rfl
    · simp [Function.comp]

theorem set_append_cons {w : List ℚ} (y x : ℚ) (z : List ℚ) :
    (w ++ y :: z).set w.length x = w ++ x :: z := by
  induction w with
  | nil => rfl
  | cons h w ih => simp [List.set_cons_succ, ih]

theorem foldSet_enumFrom (g : Event → Bool) :
    ∀ (evs' : List Event) (j : Nat) (w : List ℚ), w.length = j →
      ((List.enumFrom j evs').foldl
        (fun v p => if g p.2 then v.set p.1 1 else v)
        (w ++ List.replicate evs'.length (0 : ℚ))) =
        w ++ evs'.map (fun ev => if g ev then 1 else 0) := by
  intro evs'
  induction evs' with
  | nil =>
    intro j w _
    simp
  | cons ev rest ih =>
    intro j w hw
    rw [List.enumFrom_cons, List.foldl_cons]
    have hstep : (if g ev then
          (w ++ List.replicate (ev :: rest).length (0 : ℚ)).set j 1
        else (w ++ List.replicate (ev :: rest).length (0 : ℚ))) =
        (w ++ [if g ev then (1 : ℚ) else 0]) ++ List.replicate rest.length 0 := by
      rw [List.length_cons, List.replicate_succ]
      by_cases hg : g ev
      · rw [if_pos hg, if_pos hg, ← hw, set_append_cons]
        simp
      · rw [if_neg hg, if_neg hg]
        simp
    rw [hstep, ih (j + 1) (w ++ [if g ev then (1 : ℚ) else 0]) (by simp [hw])]
    simp

theorem foldSet_enum_indicator (a b : String) (evs : List Event) :
    ((evs.enum).foldl
      (fun v p => if coSeatedB p.2 a b then v.set p.1 1 else v)
      (List.replicate evs.length (0 : ℚ))) = indicatorVec evs a b := by
  have h := foldSet_enumFrom (fun ev => coSeatedB ev a b) evs 0 [] rfl
  simpa [List.enum, indicatorVec] using h

theorem evKeyB_sortPair {a b : String} (hne : a ≠ b) (e : Event) :
    evKeyB e (sortPair a b) = coSeatedB e a b := by
  have hiff : evKeyB e (sortPair a b) = true ↔ coSeatedB e a b = true := by
    rw [evKeyB, coSeatedB, List.any_eq_true, List.any_eq_true]
    constructor
    · rintro ⟨t, ht, hin⟩
      rw [List.any_eq_true] at hin
      obtain ⟨pq, hpq, hsort⟩ := hin
      simp only [decide_eq_true_eq] at hsort
      obtain ⟨hm1, hm2⟩ := mem_pairsOf hpq
      refine ⟨t, ht, ?_⟩
      simp only [decide_eq_true_eq]
      rcases sortPair_eq_cases hsort with ⟨h1, h2⟩ | ⟨h1, h2⟩
      · exact ⟨h1 ▸ hm1, h2 ▸ hm2⟩
      · exact ⟨h2 ▸ hm2, h1 ▸ hm1⟩
    · rintro ⟨t, ht, hab⟩
      simp only [decide_eq_true_eq] at hab
      refine ⟨t, ht, ?_⟩
      rw [List.any_eq_true]
      rcases pairsOf_mem hab.1 hab.2 hne with hp | hp
      · exact ⟨(a, b), hp, by simp⟩
      · exact ⟨(b, a), hp, by simp [sortPair_comm b a]⟩
  exact Bool.eq_iff_iff.mpr hiff

theorem init_any_iff {names : List String} (hnd : names.Nodup) (a b : String) :
    (pairsOf names).any (fun pq => sortPair pq.1 pq.2 = sortPair a b) = true ↔
      (a ≠ b ∧ a ∈ names ∧ b ∈ names) := by
  rw [List.any_eq_true]
  constructor
  · rintro ⟨pq, hpq, hsort⟩
    simp only [decide_eq_true_eq] at hsort
    obtain ⟨hm1, hm2⟩ := mem_pairsOf hpq
    have hpne : pq.1 ≠ pq.2 := pairsOf_nodup_ne hnd hpq
    rcases sortPair_eq_cases hsort with ⟨h1, h2⟩ | ⟨h1, h2⟩
    · exact ⟨by rw [← h1, ← h2]; exact hpne, by rw [← h1]; exact hm1,
        by rw [← h2]; exact hm2⟩
    · refine ⟨?_, by rw [← h2]; exact hm2, by rw [← h1]; exact hm1⟩
      intro hcon
      rw [← h1, ← h2] at hcon
      exact hpne hcon.symm
  · rintro ⟨hne, ha, hb⟩
    rcases pairsOf_mem ha hb hne with hp | hp
    · exact ⟨(a, b), hp, by simp⟩
    · exact ⟨(b, a), hp, by simp [sortPair_comm b a]⟩

/-- C5 (amended): the pairing dict built by `get_recent_pairings` is
*dense over the window's attendees*: its lookup at the sorted key of
`{a, b}` yields `some` exactly when `a ≠ b` and both names appear
somewhere in the window (pairs of attendees never co-seated within the
window are therefore present, with all-zero vectors); the stored
vector is the chronological co-seating indicator, one slot per window
event.  The per-table no-duplicate hypothesis delimits the histories
on which the Python code runs without a `KeyError`. -/
theorem get_recent_pairings_spec {history : List Event} {memory_events : Nat}
    (hnodup : ∀ e ∈ windowEvents history memory_events, ∀ t ∈ e, t.Nodup) :
    ∀ a b : String,
      dlookup (get_recent_pairings history memory_events) (sortPair a b) =
        (if a ≠ b ∧ a ∈ namesInWindow (windowEvents history memory_events) ∧
            b ∈ namesInWindow (windowEvents history memory_events) then
          some (indicatorVec (windowEvents history memory_events) a b)
        else none) ∧
      (indicatorVec (windowEvents history memory_events) a b).length =
        (windowEvents history memory_events).length := by
  intro a b
  constructor
  · rw [get_recent_pairings]
    rw [dlookup_fold_applyEvent]
    rw [dlookup_const_map]
    have hnames : (namesInWindow (windowEvents history memory_events)).Nodup :=
      List.nodup_dedup _
    have hiff := init_any_iff hnames a b
    by_cases hcond : a ≠ b ∧ a ∈ namesInWindow (windowEvents history memory_events) ∧
        b ∈ namesInWindow (windowEvents history memory_events)
    · rw [if_pos (hiff.mpr hcond), if_pos hcond]
      rw [Option.map_some']
      congr 1
      have hfun : (fun (v : List ℚ) (p : Nat × Event) =>
          if evKeyB p.2 (sortPair a b) then v.set p.1 1 else v) =
          (fun v p => if coSeatedB p.2 a b then v.set p.1 1 else v) := by
        funext v p
        rw [evKeyB_sortPair hcond.1]
      rw [hfun]
      exact foldSet_enum_indicator a b _
    · rw [if_neg (by
        intro hcon
        exact hcond (hiff.mp hcon)), if_neg hcond]
      rfl
  · rw [indicatorVec, List.length_map]

/-- C5 counterexample: one event with tables `[A, B]` and `[C, D]`.
The pair `(A, C)` was never co-seated, yet the built mapping contains
it, bound to the all-zero vector `[0]` — the mapping is not sparse. -/
theorem get_recent_pairings_sparse_counterexample :
    dlookup (get_recent_pairings oneEventHistory 3) ("A", "C") = some [0] ∧
      coSeatedB [["A", "B"], ["C", "D"]] "A" "C" = false := by
  constructor
  · decide
  · decide

/-- C5 witness: the amended characterization applied to the concrete
one-event history at the pair `(A, C)`. -/
theorem get_recent_pairings_spec_witness :
    dlookup (get_recent_pairings oneEventHistory 3) (sortPair "A" "C") =
        (if "A" ≠ "C" ∧ "A" ∈ namesInWindow (windowEvents oneEventHistory 3) ∧
            "C" ∈ namesInWindow (windowEvents oneEventHistory 3) then
          some (indicatorVec (windowEvents oneEventHistory 3) "A" "C")
        else none) ∧
      (indicatorVec (windowEvents oneEventHistory 3) "A" "C").length =
        (windowEvents oneEventHistory 3).length :=
  get_recent_pairings_spec (by decide) "A" "C"

/-! ## Lemmas about the heap model (frame property) -/

theorem pb_refl (n : Nat) (h : Heap) : PreservesBelow n h h :=
  ⟨le_refl _, fun _ _ => rfl⟩

theorem pb_trans {n : Nat} {h1 h2 h3 : Heap} (a : PreservesBelow n h1 h2)
    (b : PreservesBelow n h2 h3) : PreservesBelow n h1 h3 :=
  ⟨le_trans a.1 b.1, fun j hj => (b.2 j hj).trans (a.2 j hj)⟩

theorem pb_alloc {n : Nat} {h : Heap} (l : List Attendee) (hn : n ≤ h.length) :
    PreservesBelow n h (h ++ [l]) := by
  constructor
  · simp
  · intro j hj
    rw [readH, readH, List.getD_eq_getElem?_getD, List.getD_eq_getElem?_getD,
      List.getElem?_append_left (by omega)]

theorem pb_write {n : Nat} {h : Heap} {i : Nat} (l : List Attendee)
    (hi : n ≤ i) : PreservesBelow n h (writeH h i l) := by
  constructor
  · rw [writeH, List.length_set]
  · intro j hj
    rw [readH, readH, writeH, List.getD_eq_getElem?_getD, List.getD_eq_getElem?_getD,
      List.getElem?_set_ne (by omega)]

theorem pb_length {n : Nat} {h h' : Heap} (p : PreservesBelow n h h') :
    h.length ≤ h'.length := p.1

theorem buildLoopH_pb {c : TableConstraints} {poolId : Nat} {base extra : Int}
    {n : Nat} :
    ∀ (k i start : Nat) (h : Heap), n ≤ h.length →
      PreservesBelow n h (buildLoopH c poolId base extra k i start h).2 := by
  intro k
  induction k with
  | zero => intro i start h _; exact pb_refl n h
  | succ k ih =>
    intro i start h hn
    rw [buildLoopH]
    by_cases hmin : tableSize base extra i < (c.min_seats : Int)
    · rw [if_pos hmin]
      exact pb_refl n h
    rw [if_neg hmin]
    by_cases hmax : (c.max_seats : Int) < tableSize base extra i
    · rw [if_pos hmax]
      exact pb_refl n h
    rw [if_neg hmax]
    have halloc : PreservesBelow n h
        (h ++ [((readH h poolId).drop start).take (tableSize base extra i).toNat]) :=
      pb_alloc _ hn
    have hrec := ih (i + 1) (start + (tableSize base extra i).toNat)
      (h ++ [((readH h poolId).drop start).take (tableSize base extra i).toNat])
      (le_trans hn halloc.1)
    cases hbl : buildLoopH c poolId base extra k (i + 1)
        (start + (tableSize base extra i).toNat)
        (h ++ [((readH h poolId).drop start).take (tableSize base extra i).toNat]) with
    | mk res h2 =>
      rw [hbl] at hrec
      cases res with
      | error e => exact pb_trans halloc hrec
      | ok rest => exact pb_trans halloc hrec

theorem buildOtherTablesH_pb {c : TableConstraints} {remTables : Int}
    {poolId : Nat} {n : Nat} (h : Heap) (hn : n ≤ h.length) :
    PreservesBelow n h (buildOtherTablesH c remTables poolId h).2 := by
  rw [buildOtherTablesH]
  split
  · exact pb_refl n h
  · exact buildLoopH_pb _ _ _ h hn

theorem runIterationH_pb (c : TableConstraints) (wg ws wf : ℚ)
    (rp : String × String → Option (List ℚ)) (headId otherId : Nat)
    (remTables : Int) (o : IterOracle) (h : Heap) {n : Nat} (hn : n ≤ h.length) :
    PreservesBelow n h (runIterationH c wg ws wf rp headId otherId remTables o h).2 := by
  rw [runIterationH]
  set h1 := h ++ [readH h headId] with hh1
  set h2 := h1 ++ [(readH h1 otherId).filter (fun a => !a.assign_head_table)] with hh2
  have p2 : PreservesBelow n h h2 :=
    pb_trans (pb_alloc _ hn) (pb_alloc _ (le_trans hn (pb_alloc (readH h headId) hn).1))
  have hp6 : ∀ h6 : Heap, PreservesBelow n h h6 →
      PreservesBelow n h
        (match buildOtherTablesH c remTables h6.length
            (writeH (h6 ++ [(readH h6 otherId).filter
                (fun a => !((readH h6 h.length).contains a))]) h6.length
              (o.s2 (readH (h6 ++ [(readH h6 otherId).filter
                (fun a => !((readH h6 h.length).contains a))]) h6.length))) with
          | (.error e, h9) =>
            ((.error e : Except IterErr (ℚ × List (List Attendee))), h9)
          | (.ok tableIds, h9) =>
            (.ok (compositeScore c wg ws wf rp
                (readH h9 h.length :: tableIds.map (fun i => readH h9 i))
                (tableIds.map (fun i => readH h9 i)),
              readH h9 h.length :: tableIds.map (fun i => readH h9 i)), h9)).2 := by
    intro h6 p6
    have p7 : PreservesBelow n h (h6 ++ [(readH h6 otherId).filter
        (fun a => !((readH h6 h.length).contains a))]) :=
      pb_trans p6 (pb_alloc _ (le_trans hn p6.1))
    have p8 : PreservesBelow n h
        (writeH (h6 ++ [(readH h6 otherId).filter
            (fun a => !((readH h6 h.length).contains a))]) h6.length
          (o.s2 (readH (h6 ++ [(readH h6 otherId).filter
            (fun a => !((readH h6 h.length).contains a))]) h6.length))) :=
      pb_trans p7 (pb_write _ (le_trans hn p6.1))
    have p9 : PreservesBelow n h
        (buildOtherTablesH c remTables h6.length
          (writeH (h6 ++ [(readH h6 otherId).filter
              (fun a => !((readH h6 h.length).contains a))]) h6.length
            (o.s2 (readH (h6 ++ [(readH h6 otherId).filter
              (fun a => !((readH h6 h.length).contains a))]) h6.length)))).2 :=
      pb_trans p8 (buildOtherTablesH_pb _ (le_trans hn p8.1))
    cases hbt : buildOtherTablesH c remTables h6.length
        (writeH (h6 ++ [(readH h6 otherId).filter
            (fun a => !((readH h6 h.length).contains a))]) h6.length
          (o.s2 (readH (h6 ++ [(readH h6 otherId).filter
            (fun a => !((readH h6 h.length).contains a))]) h6.length))) with
    | mk res h9 =>
      rw [hbt] at p9
      cases res with
      | error e => exact p9
      | ok tableIds => exact p9
  by_cases hcond : (readH h2 h.length).length < c.max_seats
  · rw [if_pos hcond]
    set h3 := writeH h2 h1.length (o.s1 (readH h2 h1.length)) with hh3
    have p3 : PreservesBelow n h h3 :=
      pb_trans p2 (pb_write _ (le_trans hn (pb_alloc (readH h headId) hn).1))
    set h4 := h3 ++ [(readH h3 h1.length).take
      (c.max_seats - (readH h3 h.length).length)] with hh4
    have p4 : PreservesBelow n h h4 :=
      pb_trans p3 (pb_alloc _ (le_trans hn p3.1))
    set h5 := writeH h4 h.length (readH h4 h.length ++ readH h4 h3.length) with hh5
    have p5 : PreservesBelow n h h5 := pb_trans p4 (pb_write _ hn)
    exact hp6 (h5 ++ [(readH h5 h1.length).filter
        (fun a => !((readH h5 h3.length).contains a))])
      (pb_trans p5 (pb_alloc _ (le_trans hn p5.1)))
  · rw [if_neg hcond]
    exact hp6 h2 p2

theorem finishOpt_snd (c : TableConstraints)
    (r : Except IterErr (ℚ × List (List Attendee)) × Heap) :
    (finishOpt c r).2 = r.2 := by
  obtain ⟨res, h3⟩ := r
  cases res with
  | error e => rfl
  | ok p =>
    rw [finishOpt]
    split
    · rfl
    · split
      · rfl
      · rfl

theorem searchLoopH_pb (c : TableConstraints) (wg ws wf : ℚ)
    (rp : String × String → Option (List ℚ)) (headId otherId : Nat)
    (remTables : Int) :
    ∀ (os : List IterOracle) (best : ℚ × List (List Attendee)) (h : Heap)
      {n : Nat}, n ≤ h.length →
      PreservesBelow n h
        (searchLoopH c wg ws wf rp headId otherId remTables os best h).2 := by
  intro os
  induction os with
  | nil => intro best h n _; exact pb_refl n h
  | cons o os ih =>
    intro best h n hn
    rw [searchLoopH]
    have p1 := runIterationH_pb c wg ws wf rp headId otherId remTables o h hn
    cases hit : runIterationH c wg ws wf rp headId otherId remTables o h with
    | mk res h1 =>
      rw [hit] at p1
      cases res with
      | error e =>
        cases e with
        | zeroDiv => exact p1
        | valueError => exact pb_trans p1 (ih best h1 (le_trans hn p1.1))
      | ok p => exact pb_trans p1 (ih _ h1 (le_trans hn p1.1))

/-- C10: `optimize_seating` leaves its inputs unchanged.  Over the
explicit heap of Python list objects, every cell that existed before
the call — in particular the input attendee list and the optional
`head_table_assignments` list — holds exactly the same contents after
the call, whether the call returns or raises; all shuffling and table
construction writes hit only cells allocated during the call.  (The
optimizer's stored history and constraints are plain read-only values
of the embedding: the call only reads them, via the freshly built
pairing dict.) -/
theorem optimize_seatingH_frame (c : TableConstraints) (wg ws wf : ℚ)
    (history : List Event) (memory_events : Nat) (attId : Nat)
    (haId : Option Nat) (num_tables : Nat) (oracles : List IterOracle)
    (h : Heap) :
    ∀ j < h.length,
      readH (optimize_seatingH c wg ws wf history memory_events attId haId
        num_tables oracles h).2 j = readH h j := by
  intro j hj
  have htail : ∀ (h1 : Heap) (headId : Nat), PreservesBelow h.length h h1 →
      ∀ (r : Except String (List (List Attendee)) × Heap),
        (r.2 = (h1 ++ [(readH h1 attId).filter
            (fun a => !((readH h1 headId).contains a))]) ∨
          r.2 = (finishOpt c (searchLoopH c wg ws wf
            (fun k => dlookup (get_recent_pairings history memory_events) k)
            headId (h1.length) ((num_tables : Int) - 1) oracles (-1, [])
            (h1 ++ [(readH h1 attId).filter
              (fun a => !((readH h1 headId).contains a))]))).2) →
        readH r.2 j = readH h j := by
    intro h1 headId p1 r hr
    have p2 : PreservesBelow h.length h
        (h1 ++ [(readH h1 attId).filter
          (fun a => !((readH h1 headId).contains a))]) :=
      pb_trans p1 (pb_alloc _ p1.1)
    rcases hr with hr | hr
    · rw [hr]
      exact p2.2 j hj
    · rw [hr, finishOpt_snd]
      have p3 := searchLoopH_pb c wg ws wf
        (fun k => dlookup (get_recent_pairings history memory_events) k)
        headId (h1.length) ((num_tables : Int) - 1) oracles (-1, [])
        (h1 ++ [(readH h1 attId).filter
          (fun a => !((readH h1 headId).contains a))]) p2.1
      exact (pb_trans p2 p3).2 j hj
  cases haId with
  | none =>
    simp only [optimize_seatingH]
    refine htail (h ++ [(readH h attId).filter (fun a => a.assign_head_table)])
      h.length (pb_alloc _ (le_refl _)) _ ?_
    split
    · exact Or.inl rfl
    · split
      · exact Or.inl rfl
      · exact Or.inr rfl
  | some i =>
    by_cases hie : (readH h i).isEmpty
    · simp only [optimize_seatingH, if_pos hie]
      refine htail (h ++ [(readH h attId).filter (fun a => a.assign_head_table)])
        h.length (pb_alloc _ (le_refl _)) _ ?_
      split
      · exact Or.inl rfl
      · split
        · exact Or.inl rfl
        · exact Or.inr rfl
    · simp only [optimize_seatingH, if_neg hie]
      refine htail h i (pb_refl _ _) _ ?_
      split
      · exact Or.inl rfl
      · split
        · exact Or.inl rfl
        · exact Or.inr rfl

/-- C10 witness: a concrete two-cell heap (the attendee list and an
override list); cell 0 is unchanged by the call. -/
theorem optimize_seatingH_frame_witness :
    readH (optimize_seatingH ⟨2, 2⟩ 1 1 1 [] 3 0 (some 1) 2 [idOracle]
      [atts4, [xA]]).2 0 = readH [atts4, [xA]] 0 :=
  optimize_seatingH_frame ⟨2, 2⟩ 1 1 1 [] 3 0 (some 1) 2 [idOracle]
    [atts4, [xA]] 0 (by decide)

end Seating
